import Mathlib

/-!
Verification development for the Cymise core (graph service, revision-diff
service, impact service, stitch mappings) as a shallow embedding in Lean.

Python values flowing through the opaque JSON payloads (`data`, `validation`,
`structural`) are modelled by the inductive type `PyVal`.  Machine floats used
for severities and confidences are modelled by exact rationals: every numeric
operation the services perform on them (comparison with literals, `max`,
`min 1.0 (x + 0.2)`) is order-theoretic, and the claims under study only ever
compare against literal constants, so the rational model is faithful.

Store entities mirror `cymise/store/models.py`; repository functions mirror
`cymise/store/repo.py` (SQLAlchemy queries become list searches over the store
state, with `scalar(select ...)` returning the first matching row); service
functions mirror `cymise/graph/service.py`, `cymise/revision_diff/service.py`
and `cymise/impact/service.py`.  Fallible operations return `Except Err` and
state-mutating operations thread the `Store` value explicitly.
-/

/-- A JSON-like Python value (the shapes that can live in the store's JSON
columns and in diff payloads). -/
inductive PyVal where
  | pnone : PyVal
  | pbool (b : Bool) : PyVal
  | pint (n : Int) : PyVal
  | pstr (s : String) : PyVal
  | plist (xs : List PyVal) : PyVal
  | pdict (kvs : List (String × PyVal)) : PyVal
deriving Repr

/-- Python truthiness for `PyVal` (`bool(v)`): `None`, `False`, `0`, `""`,
`[]`, even the empty dict are falsy. -/
def pyTruthy : PyVal → Bool
  | .pnone => false
  | .pbool b => b
  | .pint n => n ≠ 0
  | .pstr s => s ≠ ""
  | .plist xs => !xs.isEmpty
  | .pdict kvs => !kvs.isEmpty

/-- `d.get(k)` on a Python dict modelled as an association list (first match,
`None` when absent). -/
def assocGet (kvs : List (String × PyVal)) (k : String) : Option PyVal :=
  (kvs.find? (fun p => p.1 == k)).map Prod.snd

/-- `d.get(k)` collapsed to `None`-as-`pnone`, matching expressions like
`node.get("name") or node.get("label")`. -/
def pyGet (kvs : List (String × PyVal)) (k : String) : PyVal :=
  (assocGet kvs k).getD .pnone

/-- Python `a or b` on values: `a` if truthy else `b`. -/
def pyOr (a b : PyVal) : PyVal := if pyTruthy a then a else b

/-- `s.startswith(p)`, expressed on the character lists (extensionally equal
to `String.startsWith`, but kernel-reducible on literals). -/
def strStartsWith (s p : String) : Bool := p.data.isPrefixOf s.data

/-- Error taxonomy of the core (`ValueError` for missing entities and bad
arguments, `TypeError` for iterating non-iterables). -/
inductive Err where
  | notFound : Err
  | invalidArgument : Err
  | typeError : Err
deriving Repr, DecidableEq

/-! ## Store entities (`cymise/store/models.py`) -/

/-- `TwinNode` row. -/
structure TwinNode where
  id : Nat
  dtmi : String
  display_name : Option String := none
  model_version : Option String := none
  validation : Option PyVal := none
deriving Repr

/-- `RelationshipEdge` row. -/
structure RelationshipEdge where
  id : Nat
  name : Option String := none
  source_id : Nat
  target_id : Nat
  validation : Option PyVal := none
deriving Repr

/-- `FileObject` row. -/
structure FileObject where
  id : Nat
  path : String
  media_type : Option String := none
  version : Option String := none
  twin_id : Option Nat := none
deriving Repr

/-- `ExtractedObject` row. -/
structure ExtractedObject where
  id : Nat
  kind : String
  data : PyVal
  file_object_id : Nat
deriving Repr

/-- `StitchCandidate` row.  `target_dtmi` is nullable; `status` ranges over
`"candidate" | "accepted" | "rejected"`. -/
structure StitchCandidate where
  id : Nat
  file_object_id : Nat
  extracted_object_id : Nat
  dt_key : String
  target_dtmi : Option String := none
  confidence : ℚ := 0.5
  rationale : Option String := none
  status : String := "candidate"
deriving Repr

/-- The persisted store state: entity tables plus autoincrement counters. -/
structure Store where
  twins : List TwinNode := []
  edges : List RelationshipEdge := []
  files : List FileObject := []
  extracted : List ExtractedObject := []
  stitches : List StitchCandidate := []
  next_edge_id : Nat := 1
deriving Repr

/-! ## Repository queries (`cymise/store/repo.py`) -/

/-- `StoreRepository.get_twin_by_dtmi`. -/
def get_twin_by_dtmi (s : Store) (dtmi : String) : Option TwinNode :=
  s.twins.find? (fun t => t.dtmi == dtmi)

/-- `StoreRepository.get_twin_by_id`. -/
def get_twin_by_id (s : Store) (twin_id : Nat) : Option TwinNode :=
  s.twins.find? (fun t => t.id == twin_id)

/-- `StoreRepository.get_relationships_for_source`. -/
def get_relationships_for_source (s : Store) (source_id : Nat) :
    List RelationshipEdge :=
  s.edges.filter (fun e => e.source_id == source_id)

/-- `StoreRepository.get_relationships_for_target`. -/
def get_relationships_for_target (s : Store) (target_id : Nat) :
    List RelationshipEdge :=
  s.edges.filter (fun e => e.target_id == target_id)

/-- `StoreRepository.get_relationship_by_id`. -/
def get_relationship_by_id (s : Store) (edge_id : Nat) :
    Option RelationshipEdge :=
  s.edges.find? (fun e => e.id == edge_id)

/-- `StoreRepository.get_file_object_by_id`. -/
def get_file_object_by_id (s : Store) (file_id : Nat) : Option FileObject :=
  s.files.find? (fun f => f.id == file_id)

/-- `StoreRepository.get_extracted_object_by_id`. -/
def get_extracted_object_by_id (s : Store) (eid : Nat) :
    Option ExtractedObject :=
  s.extracted.find? (fun e => e.id == eid)

/-- `StoreRepository.list_stitch_candidates` restricted to the two filters the
impact service uses (`file_object_id` and `status`). -/
def list_stitch_candidates (s : Store) (file_object_id : Nat)
    (status : String) : List StitchCandidate :=
  s.stitches.filter
    (fun c => c.file_object_id == file_object_id && c.status == status)

/-- `StoreRepository.add_relationship`: append a new edge row with the next
autoincrement id. -/
def add_relationship (s : Store) (source_id target_id : Nat)
    (name : Option String) : RelationshipEdge × Store :=
  let e : RelationshipEdge :=
    { id := s.next_edge_id, name := name,
      source_id := source_id, target_id := target_id }
  (e, { s with edges := s.edges ++ [e], next_edge_id := s.next_edge_id + 1 })

/-- `StoreRepository.delete_twin_by_dtmi` together with the ORM cascades
declared on `TwinNode` in `cymise/store/models.py`: `session.delete(twin)`
cascades `all, delete-orphan` over `outgoing_edges`, `incoming_edges` and
`files`, so the edge rows touching the twin and the `FileObject` rows whose
`twin_id` references it are deleted along with the twin (the column-level
`ondelete="SET NULL"` on `FileObject.twin_id` is bypassed by the ORM-level
cascade on this code path). -/
def delete_twin_by_dtmi (s : Store) (dtmi : String) : Bool × Store :=
  match get_twin_by_dtmi s dtmi with
  | none => (false, s)
  | some twin =>
      (true,
        { s with
          twins := s.twins.filter (fun t => t.id ≠ twin.id),
          edges := s.edges.filter
            (fun e => e.source_id ≠ twin.id && e.target_id ≠ twin.id),
          files := s.files.filter (fun f => f.twin_id ≠ some twin.id) })

/-! ## Graph service (`cymise/graph/service.py`) -/

/-- `GraphService._to_node` output shape. -/
structure GraphNode where
  dtmi : String
  display_name : Option String
  model_version : Option String
  validation : Option PyVal
deriving Repr

/-- `GraphService._to_edge` output shape. -/
structure GraphEdge where
  id : Nat
  name : Option String
  source_dtmi : String
  target_dtmi : String
  validation : Option PyVal
deriving Repr

/-- `GraphService._to_node`. -/
def to_node (t : TwinNode) : GraphNode :=
  { dtmi := t.dtmi, display_name := t.display_name,
    model_version := t.model_version, validation := t.validation }

/-- `GraphService._to_edge`. -/
def to_edge (e : RelationshipEdge) (source target : TwinNode) : GraphEdge :=
  { id := e.id, name := e.name, source_dtmi := source.dtmi,
    target_dtmi := target.dtmi, validation := e.validation }

/-- `GraphService._require_twin` (raises `NotFound` when the dtmi is
unknown). -/
def require_twin (s : Store) (dtmi : String) : Except Err TwinNode :=
  match get_twin_by_dtmi s dtmi with
  | none => .error .notFound
  | some t => .ok t

/-- `GraphService._require_twin_by_id`. -/
def require_twin_by_id (s : Store) (twin_id : Nat) : Except Err TwinNode :=
  match get_twin_by_id s twin_id with
  | none => .error .notFound
  | some t => .ok t

/-- `GraphService.create_relationship`: validate both endpoints, then append
the edge.  The returned store is the post-call state (unchanged when an
endpoint is missing, since both `_require_twin` checks precede the write). -/
def create_relationship (s : Store) (source_dtmi target_dtmi : String)
    (name : Option String) : Except Err GraphEdge × Store :=
  match require_twin s source_dtmi with
  | .error e => (.error e, s)
  | .ok source =>
      match require_twin s target_dtmi with
      | .error e => (.error e, s)
      | .ok target =>
          let (edge, s') := add_relationship s source.id target.id name
          (.ok (to_edge edge source target), s')

/-- `GraphService.get_outgoing_neighbors`. -/
def get_outgoing_neighbors (s : Store) (dtmi : String) :
    Except Err (List GraphNode) :=
  match require_twin s dtmi with
  | .error e => .error e
  | .ok twin =>
      .ok (((get_relationships_for_source s twin.id).filterMap
        (fun e => get_twin_by_id s e.target_id)).map to_node)

/-- `GraphService.get_incoming_neighbors`. -/
def get_incoming_neighbors (s : Store) (dtmi : String) :
    Except Err (List GraphNode) :=
  match require_twin s dtmi with
  | .error e => .error e
  | .ok twin =>
      .ok (((get_relationships_for_target s twin.id).filterMap
        (fun e => get_twin_by_id s e.source_id)).map to_node)

/-- `GraphService.get_node_validation`: returns `None` when the twin is
missing (early `return None`), otherwise the stored payload. -/
def get_node_validation (s : Store) (dtmi : String) :
    Except Err (Option PyVal) :=
  match get_twin_by_dtmi s dtmi with
  | none => .ok none
  | some twin => .ok twin.validation

/-- `GraphService.get_edge_validation`: returns `None` when the edge is
missing, otherwise the stored payload. -/
def get_edge_validation (s : Store) (edge_id : Nat) :
    Except Err (Option PyVal) :=
  match get_relationship_by_id s edge_id with
  | none => .ok none
  | some edge => .ok edge.validation

/-- `GraphService.set_node_validation`: raises `NotFound` for a missing
twin, otherwise stores the payload. -/
def set_node_validation (s : Store) (dtmi : String) (payload : Option PyVal) :
    Except Err GraphNode × Store :=
  match get_twin_by_dtmi s dtmi with
  | none => (.error .notFound, s)
  | some twin =>
      let twin' : TwinNode := { twin with validation := payload }
      let upd : TwinNode → TwinNode := fun t =>
        if t.id == twin.id then { t with validation := payload } else t
      (.ok (to_node twin'), { s with twins := s.twins.map upd })

/-! ## Bounded BFS (`GraphService.get_subgraph`) -/

/-- The loop state of `get_subgraph`: `visited_nodes` and `visited_edges`
(insertion-ordered dicts keyed by id, modelled as association lists) and the
FIFO `queue` of `(node_id, depth)` pairs. -/
structure BfsState where
  nodes : List (Nat × TwinNode)
  edgesV : List (Nat × RelationshipEdge)
  queue : List (Nat × Nat)
deriving Repr

/-- `node_id in visited_nodes`. -/
def visitedNode (st : BfsState) (i : Nat) : Bool :=
  st.nodes.any (fun p => p.1 == i)

/-- `edge.id in visited_edges`. -/
def visitedEdge (st : BfsState) (i : Nat) : Bool :=
  st.edgesV.any (fun p => p.1 == i)

/-- `edges_to_walk`: outgoing edges, plus incoming ones in undirected mode. -/
def edges_to_walk (s : Store) (directed : Bool) (nid : Nat) :
    List RelationshipEdge :=
  let outgoing := get_relationships_for_source s nid
  let incoming := get_relationships_for_target s nid
  if directed then outgoing else outgoing ++ incoming

/-- The neighbor id walked over an edge: the target in directed mode, the
"other end" in undirected mode. -/
def walk_neighbor (directed : Bool) (nid : Nat) (e : RelationshipEdge) : Nat :=
  if directed then e.target_id
  else if e.source_id == nid then e.target_id else e.source_id

/-- The body of the `for edge in edges_to_walk` loop: record the edge if
unseen, then visit and enqueue the far endpoint if it is fresh and exists. -/
def expand_edge (s : Store) (directed : Bool) (nid d : Nat) (st : BfsState)
    (e : RelationshipEdge) : BfsState :=
  let st1 := if visitedEdge st e.id then st
             else { st with edgesV := st.edgesV ++ [(e.id, e)] }
  let nb := walk_neighbor directed nid e
  if visitedNode st1 nb then st1
  else match get_twin_by_id s nb with
    | some tw =>
        { st1 with nodes := st1.nodes ++ [(nb, tw)],
                   queue := st1.queue ++ [(nb, d + 1)] }
    | none => st1

/-- Expansion of one dequeued node: fold the edge-loop body over its walkable
edges. -/
def expand_node (s : Store) (directed : Bool) (nid d : Nat) (st : BfsState) :
    BfsState :=
  (edges_to_walk s directed nid).foldl (expand_edge s directed nid d) st

/-- Ids of the store's twins. -/
def storeIds (s : Store) : Finset Nat := (s.twins.map TwinNode.id).toFinset

/-- Number of store twins not yet visited. -/
def unvis (s : Store) (nodes : List (Nat × TwinNode)) : Nat :=
  (storeIds s \ (nodes.map Prod.fst).toFinset).card

/-- Termination measure for the BFS loop: every iteration either consumes a
queue entry without visiting anything, or trades each new queue entry for a
newly visited store twin. -/
def bfsMeasure (s : Store) (st : BfsState) : Nat :=
  unvis s st.nodes + st.queue.length

theorem get_twin_by_id_mem_storeIds {s : Store} {i : Nat} {tw : TwinNode}
    (h : get_twin_by_id s i = some tw) : i ∈ storeIds s := by
  unfold get_twin_by_id at h
  have hm := List.mem_of_find?_eq_some h
  have hp := List.find?_some h
  simp only [beq_iff_eq] at hp
  subst hp
  simp only [storeIds, List.mem_toFinset, List.mem_map]
  exact ⟨tw, hm, rfl⟩

theorem expand_edge_measure (s : Store) (directed : Bool) (nid d : Nat)
    (st : BfsState) (e : RelationshipEdge) :
    bfsMeasure s (expand_edge s directed nid d st e) ≤ bfsMeasure s st := by
  unfold expand_edge
  set st1 := if visitedEdge st e.id then st
             else { st with edgesV := st.edgesV ++ [(e.id, e)] } with hst1
  have hnodes : st1.nodes = st.nodes := by
    by_cases hv : visitedEdge st e.id <;> simp [hst1, hv]
  have hqueue : st1.queue = st.queue := by
    by_cases hv : visitedEdge st e.id <;> simp [hst1, hv]
  by_cases hvn : visitedNode st1 (walk_neighbor directed nid e)
  · simp only [hvn, if_true]
    simp [bfsMeasure, hnodes, hqueue]
  · simp only [hvn, if_false]
    cases htw : get_twin_by_id s (walk_neighbor directed nid e) with
    | none => simp [bfsMeasure, hnodes, hqueue]
    | some tw =>
        simp only [bfsMeasure, hnodes, hqueue]
        set nb := walk_neighbor directed nid e with hnb
        have hmem : nb ∈ storeIds s \ (st.nodes.map Prod.fst).toFinset := by
          refine Finset.mem_sdiff.mpr ⟨get_twin_by_id_mem_storeIds htw, ?_⟩
          intro hc
          apply hvn
          simp only [visitedNode, hnodes, List.any_eq_true]
          simp only [List.mem_toFinset, List.mem_map] at hc
          obtain ⟨p, hp, hpe⟩ := hc
          exact ⟨p, hp, by simp [hpe]⟩
        have hins : ((st.nodes ++ [(nb, tw)]).map Prod.fst).toFinset
            = insert nb (st.nodes.map Prod.fst).toFinset := by
          simp only [List.map_append, List.toFinset_append, List.map_cons,
            List.map_nil, List.toFinset_cons, List.toFinset_nil,
            insert_emptyc_eq]
          rw [Finset.union_comm]
          exact (Finset.insert_eq nb _).symm
        have hcard : unvis s (st.nodes ++ [(nb, tw)])
            = unvis s st.nodes - 1 := by
          unfold unvis
          rw [hins, Finset.sdiff_insert, Finset.card_erase_of_mem hmem]
        have hpos : 1 ≤ unvis s st.nodes := by
          have := Finset.card_pos.mpr ⟨nb, hmem⟩
          unfold unvis
          omega
        simp only [Bool.false_eq_true, if_false]
        rw [hcard]
        simp only [List.length_append, List.length_cons, List.length_nil]
        omega

theorem expand_node_measure (s : Store) (directed : Bool) (nid d : Nat)
    (st : BfsState) :
    bfsMeasure s (expand_node s directed nid d st) ≤ bfsMeasure s st := by
  unfold expand_node
  generalize edges_to_walk s directed nid = l
  induction l generalizing st with
  | nil => simp
  | cons e rest ih =>
      simp only [List.foldl_cons]
      exact le_trans (ih (expand_edge s directed nid d st e))
        (expand_edge_measure s directed nid d st e)

/-- The `while queue` loop of `get_subgraph`, with hop bound `h`. -/
def bfs_loop (s : Store) (directed : Bool) (h : Nat) (st : BfsState) :
    BfsState :=
  match hq : st.queue with
  | [] => st
  | (nid, d) :: rest =>
      if h ≤ d then bfs_loop s directed h { st with queue := rest }
      else bfs_loop s directed h
        (expand_node s directed nid d { st with queue := rest })
termination_by bfsMeasure s st
decreasing_by
  · simp only [bfsMeasure]
    rw [hq]
    simp only [List.length_cons]
    omega
  · calc bfsMeasure s (expand_node s directed nid d { st with queue := rest })
        ≤ bfsMeasure s { st with queue := rest } :=
          expand_node_measure s directed nid d _
      _ < bfsMeasure s st := by
          simp only [bfsMeasure]
          rw [hq]
          simp only [List.length_cons]
          omega

/-- The edge-output stage of `get_subgraph`: each collected edge is rendered
with `_require_twin_by_id` on both endpoints (raising `NotFound` on a dangling
endpoint). -/
def edges_out (s : Store) : List (Nat × RelationshipEdge) →
    Except Err (List GraphEdge)
  | [] => .ok []
  | (_, e) :: rest =>
      match require_twin_by_id s e.source_id with
      | .error err => .error err
      | .ok a =>
          match require_twin_by_id s e.target_id with
          | .error err => .error err
          | .ok b =>
              match edges_out s rest with
              | .error err => .error err
              | .ok es => .ok (to_edge e a b :: es)

/-- `GraphService.get_subgraph`: guard `max_hops`, require the start twin, run
the bounded BFS, then render nodes and edges. -/
def get_subgraph (s : Store) (start_dtmi : String) (max_hops : Int)
    (directed : Bool) : Except Err (List GraphNode × List GraphEdge) :=
  if max_hops < 0 then .error .invalidArgument
  else
    match get_twin_by_dtmi s start_dtmi with
    | none => .error .notFound
    | some start =>
        let fin := bfs_loop s directed max_hops.toNat
          ⟨[(start.id, start)], [], [(start.id, 0)]⟩
        match edges_out s fin.edgesV with
        | .error err => .error err
        | .ok edges => .ok (fin.nodes.map (fun p => to_node p.2), edges)

/-! ## Revision diff service (`cymise/revision_diff/service.py`)

Python `set[str]` values are modelled as duplicate-free `List String`
accumulators (`set.add` inserts only when absent) and `sorted(...)` as an
insertion sort over code-point order, which is exactly Python's string
ordering. -/

/-- Python string comparison (`<=`): lexicographic on code points. -/
def charListLe : List Char → List Char → Bool
  | [], _ => true
  | _ :: _, [] => false
  | a :: as, b :: bs =>
      if a.toNat < b.toNat then true
      else if b.toNat < a.toNat then false
      else charListLe as bs

/-- `a <= b` on strings, Python-style. -/
def strLe (a b : String) : Bool := charListLe a.data b.data

/-- Insert into a sorted list (used to model `sorted(...)`). -/
def insertSorted (x : String) : List String → List String
  | [] => [x]
  | y :: ys => if strLe x y then x :: y :: ys else y :: insertSorted x ys

/-- `sorted(...)` over a (duplicate-free) list of strings. -/
def sortStrs (l : List String) : List String := l.foldr insertSorted []

/-- `set.add`: append only when absent. -/
def addStr (l : List String) (x : String) : List String :=
  if l.contains x then l else l ++ [x]

/-- The apostrophe character used by Python `repr` for strings. -/
def quoteChar : Char := Char.ofNat 39

/-- Python `repr` of a string.  (Escaping of embedded quotes is not modelled;
no claim inspects the repr of such strings.) -/
def pyQuote (s : String) : String :=
  String.singleton quoteChar ++ s ++ String.singleton quoteChar

theorem sizeOf_snd_lt_of_assoc_mem {kvs : List (String × PyVal)}
    {p : String × PyVal} (h : p ∈ kvs) :
    sizeOf p.2 < sizeOf (PyVal.pdict kvs) := by
  have h1 := List.sizeOf_lt_of_mem h
  cases p with
  | mk a b => simp at h1 ⊢; omega

theorem sizeOf_mem_lt_plist {xs : List PyVal} {v : PyVal} (h : v ∈ xs) :
    sizeOf v < sizeOf (PyVal.plist xs) := by
  have h1 := List.sizeOf_lt_of_mem h
  simp
  omega

theorem pyGet_sizeOf_lt {kvs : List (String × PyVal)} {k : String} {v : PyVal}
    (h : pyGet kvs k = v) (hne : v ≠ PyVal.pnone) :
    sizeOf v < sizeOf (PyVal.pdict kvs) := by
  unfold pyGet at h
  cases hag : assocGet kvs k with
  | none =>
      rw [hag] at h
      simp [Option.getD] at h
      exact absurd h.symm hne
  | some w =>
      rw [hag] at h
      simp at h
      subst h
      unfold assocGet at hag
      cases hf : kvs.find? (fun p => p.1 == k) with
      | none => rw [hf] at hag; simp at hag
      | some p =>
          rw [hf] at hag
          simp at hag
          have h2 := sizeOf_snd_lt_of_assoc_mem (List.mem_of_find?_eq_some hf)
          rw [hag] at h2
          exact h2

/-- Python `str`/`repr` of a value, as used by the identity-set fallbacks
(`str(comp)`, `str(node)`); nested strings render with quotes as in `repr`. -/
def pyRepr : PyVal → String
  | .pnone => "None"
  | .pbool b => if b then "True" else "False"
  | .pint n => toString n
  | .pstr s => pyQuote s
  | .plist xs =>
      "[" ++ ", ".intercalate (xs.attach.map (fun c => pyRepr c.1)) ++ "]"
  | .pdict kvs =>
      "\x7b" ++ ", ".intercalate (kvs.attach.map
        (fun p => pyQuote p.1.1 ++ ": " ++ pyRepr p.1.2)) ++ "\x7d"
termination_by v => sizeOf v
decreasing_by
  · exact sizeOf_mem_lt_plist c.2
  · exact sizeOf_snd_lt_of_assoc_mem p.2

/-- Python `str(v)`: like `repr` but top-level strings unquoted. -/
def pyToStr : PyVal → String
  | .pstr s => s
  | v => pyRepr v

/-- `RevisionDiffService._extract_dt_keys`: non-dict data yields the empty
set; `data.get("dt_keys") or []` replaces a falsy value by `[]`; the set
comprehension then iterates the value, keeping `str` elements — a truthy
non-iterable (int/bool) raises `TypeError`, a string iterates into its
characters, a dict into its keys. -/
def extract_dt_keys (data : PyVal) : Except Err (List String) :=
  match data with
  | .pdict kvs =>
      match pyOr (pyGet kvs "dt_keys") (.plist []) with
      | .plist xs =>
          .ok ((xs.filterMap (fun v => match v with
            | .pstr s => some s
            | _ => none)).foldl addStr [])
      | .pstr s => .ok ((s.data.map Char.toString).foldl addStr [])
      | .pdict kv2 => .ok ((kv2.map Prod.fst).foldl addStr [])
      | _ => .error .typeError
  | _ => .ok []

/-- `RevisionDiffService._component_identities`. -/
def component_identities (components : PyVal) : List String :=
  match components with
  | .plist comps =>
      comps.foldl (fun acc comp =>
        match comp with
        | .pdict kvs =>
            match pyOr (pyGet kvs "ref") (pyGet kvs "reference") with
            | .pstr r => addStr acc r
            | _ => addStr acc (pyToStr comp)
        | .pstr s => addStr acc s
        | other => addStr acc (pyToStr other)) []
  | _ => []

/-- `RevisionDiffService._net_identities`. -/
def net_identities (nets : PyVal) : List String :=
  match nets with
  | .plist ns =>
      ns.foldl (fun acc net =>
        match net with
        | .pdict kvs =>
            match pyGet kvs "name" with
            | .pstr n => addStr acc n
            | _ => addStr acc (pyToStr net)
        | .pstr s => addStr acc s
        | other => addStr acc (pyToStr other)) []
  | _ => []

/-- `sorted(a - b)` for the dedup-list model of string sets. -/
def sortedDiff (a b : List String) : List String :=
  sortStrs (a.filter (fun x => !b.contains x))

/-- `sorted(a & b)`. -/
def sortedInter (a b : List String) : List String :=
  sortStrs (a.filter (fun x => b.contains x))

/-- `RevisionDiffService._structural_diff_kicad`. -/
def structural_diff_kicad (old_data new_data : List (String × PyVal)) :
    List (String × PyVal) :=
  let old_components := component_identities
    (pyOr (pyGet old_data "components") (pyOr (pyGet old_data "parts") (.plist [])))
  let new_components := component_identities
    (pyOr (pyGet new_data "components") (pyOr (pyGet new_data "parts") (.plist [])))
  let old_nets := net_identities (pyOr (pyGet old_data "nets") (.plist []))
  let new_nets := net_identities (pyOr (pyGet new_data "nets") (.plist []))
  [("components_added", .plist ((sortedDiff new_components old_components).map .pstr)),
   ("components_removed", .plist ((sortedDiff old_components new_components).map .pstr)),
   ("nets_added", .plist ((sortedDiff new_nets old_nets).map .pstr)),
   ("nets_removed", .plist ((sortedDiff old_nets new_nets).map .pstr))]

/-- The recursive tree walk of `RevisionDiffService._flatten_tree_paths`:
dict nodes extend the prefix with their `name`/`label` when it is a string and
record the slash-joined path, then recurse into a list-valued `children`;
list nodes walk their elements; strings and other scalars record a path
directly. -/
def walkTree (node : PyVal) (pre : List String) : List String :=
  match node with
  | .pdict kvs =>
      let nameV := pyOr (pyGet kvs "name") (pyGet kvs "label")
      let cp := match nameV with
        | .pstr nm => pre ++ [nm]
        | _ => pre
      let base := match nameV with
        | .pstr _ => ["/".intercalate cp]
        | _ => []
      (match hch : pyGet kvs "children" with
        | .plist cs => cs.attach.foldl
            (fun acc c => acc ++ (walkTree c.1 cp).filter
              (fun p => !acc.contains p)) base
        | _ => base)
  | .plist xs =>
      xs.attach.foldl (fun acc c => acc ++ (walkTree c.1 pre).filter
        (fun p => !acc.contains p)) []
  | .pstr s => ["/".intercalate (pre ++ [s])]
  | other => ["/".intercalate (pre ++ [pyToStr other])]
termination_by sizeOf node
decreasing_by
  · have h1 : sizeOf c.1 < sizeOf (PyVal.plist cs) := sizeOf_mem_lt_plist c.2
    have h2 : sizeOf (PyVal.plist cs) < sizeOf (PyVal.pdict kvs) :=
      pyGet_sizeOf_lt hch (by simp)
    omega
  · exact sizeOf_mem_lt_plist c.2

/-- `RevisionDiffService._structural_diff_freecad`. -/
def structural_diff_freecad (old_data new_data : List (String × PyVal)) :
    List (String × PyVal) :=
  let old_tree := pyOr (pyGet old_data "tree") (.plist [])
  let new_tree := pyOr (pyGet new_data "tree") (.plist [])
  let old_paths := walkTree old_tree []
  let new_paths := walkTree new_tree []
  [("tree_nodes_added", .plist ((sortedDiff new_paths old_paths).map .pstr)),
   ("tree_nodes_removed", .plist ((sortedDiff old_paths new_paths).map .pstr))]

/-- The volatile keys excluded before hashing. -/
def excludeKeys : List String :=
  ["tool_info", "errors", "timestamp", "created_at", "updated_at"]

theorem sizeOf_snd_lt_of_filter_mem {kvs : List (String × PyVal)}
    {q : String × PyVal → Bool} {p : String × PyVal}
    (h : p ∈ kvs.filter q) : sizeOf p.2 < sizeOf (PyVal.pdict kvs) :=
  sizeOf_snd_lt_of_assoc_mem (List.mem_of_mem_filter h)

/-- The `clean` closure of `_structural_diff_hash`: drop excluded keys at
every dict level. -/
def cleanVal : PyVal → PyVal
  | .pdict kvs =>
      .pdict (((kvs.filter (fun p => !excludeKeys.contains p.1)).attach).map
        (fun p => (p.1.1, cleanVal p.1.2)))
  | .plist xs => .plist (xs.attach.map (fun c => cleanVal c.1))
  | v => v
termination_by v => sizeOf v
decreasing_by
  · exact sizeOf_snd_lt_of_filter_mem p.2
  · exact sizeOf_mem_lt_plist c.2

/-- Insertion step for sorting dict items by key. -/
def insertPairSorted (x : String × PyVal) :
    List (String × PyVal) → List (String × PyVal)
  | [] => [x]
  | y :: ys => if strLe x.1 y.1 then x :: y :: ys else y :: insertPairSorted x ys

/-- `sort_keys=True`: dict items in ascending key order. -/
def sortPairs (l : List (String × PyVal)) : List (String × PyVal) :=
  l.foldr insertPairSorted []

theorem mem_of_mem_insertPairSorted {x a : String × PyVal}
    {l : List (String × PyVal)} (h : a ∈ insertPairSorted x l) :
    a = x ∨ a ∈ l := by
  induction l with
  | nil => simp [insertPairSorted] at h; simp [h]
  | cons y ys ih =>
      unfold insertPairSorted at h
      by_cases hc : strLe x.1 y.1
      · simp [hc] at h
        rcases h with h | h | h
        · exact Or.inl h
        · exact Or.inr (by simp [h])
        · exact Or.inr (by simp [h])
      · simp [hc] at h
        rcases h with h | h
        · exact Or.inr (by simp [h])
        · rcases ih h with h2 | h2
          · exact Or.inl h2
          · exact Or.inr (by simp [h2])

theorem mem_of_mem_sortPairs {a : String × PyVal} {l : List (String × PyVal)}
    (h : a ∈ sortPairs l) : a ∈ l := by
  induction l with
  | nil => simpa [sortPairs] using h
  | cons y ys ih =>
      unfold sortPairs at h
      simp only [List.foldr_cons] at h
      rcases mem_of_mem_insertPairSorted h with h2 | h2
      · simp [h2]
      · exact List.mem_cons_of_mem _ (ih h2)

/-- Escaping for JSON string rendering (quote and backslash; further control
escapes are not modelled — no claim inspects digest strings). -/
def jsonEscChar (c : Char) : String :=
  if c = Char.ofNat 34 then "\\\""
  else if c = Char.ofNat 92 then "\\\\"
  else String.singleton c

/-- JSON string literal. -/
def jsonQuote (s : String) : String :=
  "\"" ++ String.join (s.data.map jsonEscChar) ++ "\""

/-- `json.dumps(v, sort_keys=True, separators=(",", ":"))`: the canonical
serialization hashed by `_structural_diff_hash`. -/
def pyJson : PyVal → String
  | .pnone => "null"
  | .pbool b => if b then "true" else "false"
  | .pint n => toString n
  | .pstr s => jsonQuote s
  | .plist xs => "[" ++ ",".intercalate (xs.attach.map (fun c => pyJson c.1)) ++ "]"
  | .pdict kvs =>
      "\x7b" ++ ",".intercalate ((sortPairs kvs).attach.map
        (fun p => jsonQuote p.1.1 ++ ":" ++ pyJson p.1.2)) ++ "\x7d"
termination_by v => sizeOf v
decreasing_by
  · exact sizeOf_mem_lt_plist c.2
  · exact sizeOf_snd_lt_of_assoc_mem (mem_of_mem_sortPairs p.2)

/-- The `digest` closure of `_structural_diff_hash`.  The SHA-256 hexdigest is
modelled as the canonical serialization itself (an injective stand-in; the
code only ever compares digests for equality).  The `except` fallback to
hashing `str(obj)` is unreachable here because every `PyVal` serializes. -/
def digestOf (obj : PyVal) : String := pyJson (cleanVal obj)

/-- `RevisionDiffService._structural_diff_hash`. -/
def structural_diff_hash (old_data new_data : PyVal) :
    List (String × PyVal) :=
  let old_hash := digestOf old_data
  let new_hash := digestOf new_data
  [("data_hash_old", .pstr old_hash),
   ("data_hash_new", .pstr new_hash),
   ("hash_changed", .pbool (old_hash ≠ new_hash))]

/-- `RevisionDiffService._structural_diff`: kind-mismatch record, else
dispatch on the (shared) kind with non-dict data degraded to `{}`. -/
def structural_diff (old_obj new_obj : ExtractedObject) :
    List (String × PyVal) :=
  if old_obj.kind ≠ new_obj.kind then
    [("kind_mismatch", .pdict
      [("old", .pstr old_obj.kind), ("new", .pstr new_obj.kind)])]
  else
    let old_data := match old_obj.data with
      | .pdict kvs => kvs
      | _ => []
    let new_data := match new_obj.data with
      | .pdict kvs => kvs
      | _ => []
    if new_obj.kind == "kicad_ecad" then structural_diff_kicad old_data new_data
    else if new_obj.kind == "freecad_tree" then
      structural_diff_freecad old_data new_data
    else structural_diff_hash (.pdict old_data) (.pdict new_data)

/-- `len(structural.get(k, []))`. -/
def lenOfKey (structural : List (String × PyVal)) (k : String) : Nat :=
  match assocGet structural k with
  | some (.plist xs) => xs.length
  | _ => 0

/-- `RevisionDiffService._structural_summary`. -/
def structural_summary (structural : List (String × PyVal)) : String :=
  if structural.isEmpty then "no change"
  else if (structural.map Prod.fst).contains "kind_mismatch" then "kind mismatch"
  else if (structural.map Prod.fst).contains "hash_changed" then
    (if pyTruthy (pyGet structural "hash_changed") then "hash changed"
     else "hash unchanged")
  else if structural.any
      (fun p => strStartsWith p.1 "components" || strStartsWith p.1 "nets") then
    let added := lenOfKey structural "components_added"
      + lenOfKey structural "nets_added"
    let removed := lenOfKey structural "components_removed"
      + lenOfKey structural "nets_removed"
    "kicad Δ +" ++ toString added ++ "/-" ++ toString removed
  else if structural.any (fun p => strStartsWith p.1 "tree_nodes") then
    let added := lenOfKey structural "tree_nodes_added"
    let removed := lenOfKey structural "tree_nodes_removed"
    "freecad Δ +" ++ toString added ++ "/-" ++ toString removed
  else "structural diff"

/-- `RevisionDiffResult` dataclass. -/
structure RevisionDiffResult where
  file_object_id : Nat
  kind : String
  old_extracted_object_id : Nat
  new_extracted_object_id : Nat
  dt_key_added : List String
  dt_key_removed : List String
  dt_key_unchanged : List String
  structural : List (String × PyVal)
  summary : String
deriving Repr

/-- `RevisionDiffService.diff_extracted_objects`: `None` (not an exception)
when either snapshot id is unknown; key-level set diff plus structural diff
otherwise.  A `TypeError` from iterating a malformed `dt_keys` propagates. -/
def diff_extracted_objects (s : Store) (old_id new_id : Nat) :
    Except Err (Option RevisionDiffResult) :=
  match get_extracted_object_by_id s old_id,
        get_extracted_object_by_id s new_id with
  | some old_obj, some new_obj =>
      let kind := if new_obj.kind ≠ "" then new_obj.kind else old_obj.kind
      match extract_dt_keys old_obj.data with
      | .error e => .error e
      | .ok old_keys =>
          match extract_dt_keys new_obj.data with
          | .error e => .error e
          | .ok new_keys =>
              let dt_key_added := sortedDiff new_keys old_keys
              let dt_key_removed := sortedDiff old_keys new_keys
              let dt_key_unchanged := sortedInter old_keys new_keys
              let structural := structural_diff old_obj new_obj
              let ssum := structural_summary structural
              .ok (some
                { file_object_id := new_obj.file_object_id,
                  kind := kind,
                  old_extracted_object_id := old_obj.id,
                  new_extracted_object_id := new_obj.id,
                  dt_key_added := dt_key_added,
                  dt_key_removed := dt_key_removed,
                  dt_key_unchanged := dt_key_unchanged,
                  structural := structural,
                  summary := "dt_keys +" ++ toString dt_key_added.length
                    ++ " -" ++ toString dt_key_removed.length
                    ++ ", structural: " ++ ssum })
  | none, _ => .ok none
  | some _, none => .ok none

/-! ## Impact service (`cymise/impact/service.py`) -/

/-- `ImpactEvidence` dataclass. -/
structure ImpactEvidence where
  kind : String
  detail : String
  source : Option String := none
deriving Repr, DecidableEq

/-- `ImpactRecord` dataclass. -/
structure ImpactRecord where
  dtmi : String
  severity : ℚ
  confidence : ℚ
  evidences : List ImpactEvidence
  is_propagated : Bool := false
deriving Repr, DecidableEq

/-- `ImpactResult` dataclass. -/
structure ImpactResult where
  file_object_id : Nat
  kind : String
  old_extracted_object_id : Nat
  new_extracted_object_id : Nat
  impacted : List ImpactRecord
  propagated : List ImpactRecord
  summary : String
deriving Repr, DecidableEq

/-- The diff dict consumed by `compute_impact_from_diff` (the fields that
`RevisionDiffService.to_dict` produces and the impact service reads). -/
structure DiffDict where
  kind : String := ""
  old_extracted_object_id : Nat := 0
  new_extracted_object_id : Nat := 0
  dt_key_added : List String := []
  dt_key_removed : List String := []
  structural : List (String × PyVal) := []

/-- Modelled from the spec: `GraphService.list_stitches` is invoked by
`ImpactService._resolve_dtmi` (and by the test suite) but its definition is
absent from the source tree.  Per the spec's resolution rule — "search
accepted and candidate stitch mappings" for the file — it is modelled as
listing the store's stitch candidates filtered by `file_object_id` and
`status`, which is exactly `StoreRepository.list_stitch_candidates` with
those two filters. -/
def list_stitches (s : Store) (file_object_id : Nat) (status : String) :
    List StitchCandidate :=
  list_stitch_candidates s file_object_id status

/-- The truthiness test `stitch.get("target_dtmi")` applies to a nullable
string column: `None` and `""` are falsy. -/
def truthyTarget (st : StitchCandidate) : Bool :=
  match st.target_dtmi with
  | some t => t ≠ ""
  | none => false

/-- `ImpactService._resolve_dtmi`.  Keys arriving from a diff are strings,
so the `isinstance(dt_key, str)` guard is discharged by typing.  A key with
the `dtmi:` prefix resolves to itself directly; otherwise the accepted-then-
candidate stitch pools are searched in order for a matching `dt_key` with a
truthy `target_dtmi`. -/
def resolve_dtmi (s : Store) (dt_key : String) (file_object_id : Nat) :
    Option (String × Bool) :=
  if strStartsWith dt_key "dtmi:" then some (dt_key, true)
  else
    let stitches := list_stitches s file_object_id "accepted"
      ++ list_stitches s file_object_id "candidate"
    match stitches.find? (fun st => st.dt_key == dt_key && truthyTarget st) with
    | some st => some (st.target_dtmi.getD "", false)
    | none => none

/-- The `add_impact` closure of `compute_impact_from_diff`: merge into the
insertion-ordered `impacted_map`, taking the max of severity and confidence
and appending the evidence; fresh DTMIs get a new non-propagated record. -/
def add_impact (m : List (String × ImpactRecord)) (dtmi : String)
    (severity confidence : ℚ) (evidence : ImpactEvidence) :
    List (String × ImpactRecord) :=
  if m.any (fun p => p.1 == dtmi) then
    m.map (fun p =>
      if p.1 == dtmi then
        (p.1, { p.2 with
          severity := max p.2.severity severity,
          confidence := max p.2.confidence confidence,
          evidences := p.2.evidences ++ [evidence] })
      else p)
  else
    m ++ [(dtmi,
      { dtmi := dtmi, severity := severity, confidence := confidence,
        evidences := [evidence], is_propagated := false })]

/-- One key-resolution registration (dtmi, severity, confidence, evidence)
produced by the `dt_key_added` / `dt_key_removed` loops. -/
structure Reg where
  dtmi : String
  severity : ℚ
  confidence : ℚ
  evidence : ImpactEvidence
deriving Repr, DecidableEq

/-- The registration sequence of one `compute_impact_from_diff` run: resolved
added keys (severity 0.6) followed by resolved removed keys (severity 0.8),
confidence 0.9 for direct and 0.6 for indirect resolutions. -/
def regsOfDiff (s : Store) (file_object_id : Nat) (diff : DiffDict) :
    List Reg :=
  diff.dt_key_added.filterMap (fun k =>
    (resolve_dtmi s k file_object_id).map (fun r =>
      { dtmi := r.1, severity := 0.6,
        confidence := if r.2 then 0.9 else 0.6,
        evidence := ⟨"dt_key_added", k,
          some (toString diff.new_extracted_object_id)⟩ }))
  ++ diff.dt_key_removed.filterMap (fun k =>
    (resolve_dtmi s k file_object_id).map (fun r =>
      { dtmi := r.1, severity := 0.8,
        confidence := if r.2 then 0.9 else 0.6,
        evidence := ⟨"dt_key_removed", k,
          some (toString diff.new_extracted_object_id)⟩ }))

/-- Folding `add_impact` over a registration sequence. -/
def apply_registrations (m : List (String × ImpactRecord)) (regs : List Reg) :
    List (String × ImpactRecord) :=
  regs.foldl (fun m r => add_impact m r.dtmi r.severity r.confidence r.evidence) m

/-- `ImpactService._structural_changed`. -/
def structural_changed (structural : List (String × PyVal)) : Bool :=
  if structural.isEmpty then false
  else if (structural.map Prod.fst).contains "hash_changed" then
    pyTruthy (pyGet structural "hash_changed")
  else structural.any (fun p =>
    p.1 == "kind_mismatch"
    || (match p.2 with | .plist xs => xs.any pyTruthy | _ => false)
    || (match p.2 with | .pbool b => b | _ => false))

/-- The structural-change bump: `severity := min 1.0 (severity + 0.2)` and a
`structural_change` evidence for every record currently in `impacted_map`. -/
def bump_impacted (m : List (String × ImpactRecord)) :
    List (String × ImpactRecord) :=
  m.map (fun p => (p.1, { p.2 with
    severity := min 1.0 (p.2.severity + 0.2),
    evidences := p.2.evidences ++
      [{ kind := "structural_change",
         detail := "structural change detected", source := none }] }))

/-- `ImpactService._neighbors`: outgoing neighbor dtmis, plus incoming ones
when undirected; any lookup failure is swallowed into `[]`. -/
def impact_neighbors (s : Store) (dtmi : String) (directed : Bool) :
    List String :=
  match get_outgoing_neighbors s dtmi with
  | .error _ => []
  | .ok outgoing =>
      if directed then outgoing.map GraphNode.dtmi
      else
        match get_incoming_neighbors s dtmi with
        | .error _ => []
        | .ok incoming => (outgoing ++ incoming).map GraphNode.dtmi

/-- The body of the neighbor loop in the propagation phase: skip neighbors
that are directly impacted or already propagated, otherwise append a
propagated record with fixed severity/confidence 0.3. -/
def propagate_one (impactedKeys : List String) (file_object_id : Nat)
    (origin : String) (acc : List ImpactRecord) (neighbor : String) :
    List ImpactRecord :=
  if impactedKeys.contains neighbor || acc.any (fun p => p.dtmi == neighbor) then
    acc
  else
    let ev : ImpactEvidence := ⟨"propagated", "propagated from " ++ origin,
      some (toString file_object_id)⟩
    let rec0 : ImpactRecord :=
      { dtmi := neighbor, severity := 0.3, confidence := 0.3,
        evidences := [ev], is_propagated := true }
    acc ++ [rec0]

/-- The propagation phase: for every origin (key of `impacted_map`, in
order), register its fresh neighbors as propagated records. -/
def propagate_all (s : Store) (directed : Bool) (file_object_id : Nat)
    (impactedKeys : List String) : List ImpactRecord :=
  impactedKeys.foldl (fun acc origin =>
    (impact_neighbors s origin directed).foldl
      (propagate_one impactedKeys file_object_id origin) acc) []

/-- `ImpactService.compute_impact_from_diff`. -/
def compute_impact_from_diff (s : Store) (file_object_id : Nat)
    (diff : DiffDict) (hops : Int) (directed : Bool) : ImpactResult :=
  let regs := regsOfDiff s file_object_id diff
  let m0 := apply_registrations [] regs
  let m := if structural_changed diff.structural then bump_impacted m0 else m0
  let propagated :=
    if 0 < hops then propagate_all s directed file_object_id (m.map Prod.fst)
    else []
  { file_object_id := file_object_id,
    kind := diff.kind,
    old_extracted_object_id := diff.old_extracted_object_id,
    new_extracted_object_id := diff.new_extracted_object_id,
    impacted := m.map Prod.snd,
    propagated := propagated,
    summary := "impacted=" ++ toString m.length
      ++ ", propagated=" ++ toString propagated.length
      ++ ", dt_keys +" ++ toString diff.dt_key_added.length
      ++ " -" ++ toString diff.dt_key_removed.length }

/-! ## Lemmas about the impact merge map -/

/-- Dict lookup in the `impacted_map` association list. -/
def lookupRec (m : List (String × ImpactRecord)) (d : String) :
    Option ImpactRecord :=
  (m.find? (fun p => p.1 == d)).map Prod.snd

/-- The in-place update `add_impact` performs on an existing record. -/
def mergeRec (r : ImpactRecord) (sv cf : ℚ) (ev : ImpactEvidence) :
    ImpactRecord :=
  { r with
    severity := max r.severity sv,
    confidence := max r.confidence cf,
    evidences := r.evidences ++ [ev] }

/-- The fresh record `add_impact` creates for an unseen DTMI. -/
def freshRec (d : String) (sv cf : ℚ) (ev : ImpactEvidence) : ImpactRecord :=
  { dtmi := d, severity := sv, confidence := cf, evidences := [ev],
    is_propagated := false }


theorem add_impact_eq (m : List (String × ImpactRecord)) (d : String)
    (sv cf : ℚ) (ev : ImpactEvidence) :
    add_impact m d sv cf ev =
      if m.any (fun p => p.1 == d) then
        m.map (fun p => if p.1 == d then (p.1, mergeRec p.2 sv cf ev) else p)
      else m ++ [(d, freshRec d sv cf ev)] := rfl

theorem lookupRec_add_impact (m : List (String × ImpactRecord))
    (d d2 : String) (sv cf : ℚ) (ev : ImpactEvidence) :
    lookupRec (add_impact m d sv cf ev) d2 =
      if d2 = d then
        some (match lookupRec m d with
          | some r => mergeRec r sv cf ev
          | none => freshRec d sv cf ev)
      else lookupRec m d2 := by
  rw [add_impact_eq]
  by_cases hany : m.any (fun p => p.1 == d)
  · simp only [hany, if_true]
    set f : (String × ImpactRecord) → (String × ImpactRecord) := fun p =>
      if p.1 == d then (p.1, mergeRec p.2 sv cf ev) else p with hf
    have hkey : ∀ q, (f q).1 = q.1 := by
      intro q
      by_cases hq : q.1 = d <;> simp [hf, hq]
    have hfind : (m.map f).find? (fun p => p.1 == d2)
        = (m.find? (fun p => p.1 == d2)).map f := by
      rw [List.find?_map]
      have hpred : ((fun p : String × ImpactRecord => p.1 == d2) ∘ f)
          = (fun q : String × ImpactRecord => q.1 == d2) := by
        funext q
        simp only [Function.comp_apply, hkey]
      rw [hpred]
    by_cases h2 : d2 = d
    · subst h2
      simp only [if_pos rfl]
      cases hfo : m.find? (fun p => p.1 == d2) with
      | none =>
          exfalso
          rcases List.any_eq_true.mp hany with ⟨q, hqm, hqd⟩
          exact (List.find?_eq_none.mp hfo q hqm) hqd
      | some q0 =>
          have hq0 := List.find?_some hfo
          simp only [beq_iff_eq] at hq0
          simp only [lookupRec, hfind, hfo, Option.map_some]
          simp [hf, hq0]
    · simp only [if_neg h2]
      cases hfo : m.find? (fun p => p.1 == d2) with
      | none => simp [lookupRec, hfind, hfo]
      | some q0 =>
          have hq0 := List.find?_some hfo
          simp only [beq_iff_eq] at hq0
          have hne : ¬ q0.1 = d := by
            rw [hq0]
            exact h2
          simp only [lookupRec, hfind, hfo, Option.map_some]
          simp [hf, hne]
  · simp only [hany, Bool.false_eq_true, if_false]
    have hnone : m.find? (fun p => p.1 == d) = none := by
      rw [List.find?_eq_none]
      intro q hqm hqd
      exact (List.any_eq_true.not.mp hany) ⟨q, hqm, hqd⟩
    by_cases h2 : d2 = d
    · subst h2
      simp only [if_pos rfl, lookupRec]
      rw [List.find?_append, hnone]
      simp
    · simp only [if_neg h2, lookupRec]
      rw [List.find?_append]
      have hone : ([(d, freshRec d sv cf ev)].find? (fun p => p.1 == d2)) = none := by
        simp only [List.find?_cons, List.find?_nil]
        have hdd : (d == d2) = false := by
          simp only [beq_eq_false_iff_ne, ne_eq]
          exact fun hc => h2 hc.symm
        simp [hdd]
      rw [hone]
      cases m.find? (fun p => p.1 == d2) <;> simp

/-- The per-registration effect on one DTMI's record. -/
def regStep (o : Option ImpactRecord) (r : Reg) : Option ImpactRecord :=
  some (match o with
    | some rec0 => mergeRec rec0 r.severity r.confidence r.evidence
    | none => freshRec r.dtmi r.severity r.confidence r.evidence)

theorem lookupRec_apply_registrations (regs : List Reg)
    (m : List (String × ImpactRecord)) (d : String) :
    lookupRec (apply_registrations m regs) d
      = (regs.filter (fun r => r.dtmi == d)).foldl regStep (lookupRec m d) := by
  induction regs generalizing m with
  | nil => simp [apply_registrations]
  | cons r rs ih =>
      have hstep : apply_registrations m (r :: rs)
          = apply_registrations
              (add_impact m r.dtmi r.severity r.confidence r.evidence) rs := by
        simp [apply_registrations]
      rw [hstep, ih]
      rw [lookupRec_add_impact]
      by_cases hd : r.dtmi = d
      · subst hd
        simp only [List.filter_cons, beq_self_eq_true, if_true, if_pos rfl,
          List.foldl_cons]
        simp [regStep]
      · have hdb : (r.dtmi == d) = false := by simp [hd]
        simp only [List.filter_cons, hdb, Bool.false_eq_true, if_false]
        rw [if_neg (fun hc => hd hc.symm)]

theorem foldl_max_init (l : List ℚ) (b : ℚ) : b ≤ l.foldl max b := by
  induction l generalizing b with
  | nil => simp
  | cons x xs ih => exact le_trans (le_max_left b x) (ih (max b x))

theorem foldl_max_mem (l : List ℚ) (b x : ℚ) (h : x ∈ l) :
    x ≤ l.foldl max b := by
  induction l generalizing b with
  | nil => simp at h
  | cons y ys ih =>
      rcases List.mem_cons.mp h with h1 | h1
      · subst h1
        exact le_trans (le_max_right b x) (foldl_max_init ys (max b x))
      · exact ih (max b y) h1

theorem foldl_max_cases (l : List ℚ) (b : ℚ) :
    l.foldl max b = b ∨ l.foldl max b ∈ l := by
  induction l generalizing b with
  | nil => simp
  | cons x xs ih =>
      rcases ih (max b x) with h | h
      · simp only [List.foldl_cons]
        rcases max_cases b x with ⟨he, _⟩ | ⟨he, _⟩
        · left
          rw [h, he]
        · right
          rw [h, he]
          exact List.mem_cons_self x xs
      · right
        simp only [List.foldl_cons]
        exact List.mem_cons_of_mem x h

theorem regStep_foldl_some (rs : List Reg) (r0 : ImpactRecord) :
    ∃ rec, rs.foldl regStep (some r0) = some rec
      ∧ rec.severity = (rs.map Reg.severity).foldl max r0.severity
      ∧ rec.confidence = (rs.map Reg.confidence).foldl max r0.confidence
      ∧ rec.evidences.length = r0.evidences.length + rs.length
      ∧ rec.dtmi = r0.dtmi ∧ rec.is_propagated = r0.is_propagated := by
  induction rs generalizing r0 with
  | nil => exact ⟨r0, by simp⟩
  | cons r rest ih =>
      rcases ih (mergeRec r0 r.severity r.confidence r.evidence) with
        ⟨rec, h1, h2, h3, h4, h5, h6⟩
      refine ⟨rec, ?_, ?_, ?_, ?_, ?_, ?_⟩
      · simpa [regStep] using h1
      · simpa [mergeRec] using h2
      · simpa [mergeRec] using h3
      · simp only [mergeRec, List.length_append, List.length_cons,
          List.length_nil] at h4
        simp only [List.length_cons]
        omega
      · simpa [mergeRec] using h5
      · simpa [mergeRec] using h6

/-- C3 — Impact merge policy: across the registrations of one
`compute_impact_from_diff` run (the folds of the `add_impact` closure), the
record kept for a DTMI carries the maximum severity and maximum confidence
seen among that DTMI's registrations (never a sum or average) and one
appended evidence per registration; re-registering an identical
(dtmi, severity, confidence) triple leaves severity and confidence unchanged
while the evidence list grows by exactly one. -/
theorem impact_merge_policy_c3 :
    (∀ (regs : List Reg) (d : String) (rec : ImpactRecord),
      lookupRec (apply_registrations [] regs) d = some rec →
        (rec.severity ∈ (regs.filter (fun r => r.dtmi == d)).map Reg.severity
          ∧ ∀ x ∈ (regs.filter (fun r => r.dtmi == d)).map Reg.severity,
              x ≤ rec.severity)
        ∧ (rec.confidence ∈ (regs.filter (fun r => r.dtmi == d)).map Reg.confidence
          ∧ ∀ x ∈ (regs.filter (fun r => r.dtmi == d)).map Reg.confidence,
              x ≤ rec.confidence)
        ∧ rec.evidences.length = (regs.filter (fun r => r.dtmi == d)).length)
    ∧ (∀ (m : List (String × ImpactRecord)) (d : String) (sv cf : ℚ)
        (e1 e2 : ImpactEvidence) (r1 : ImpactRecord),
      lookupRec (add_impact m d sv cf e1) d = some r1 →
        ∃ r2, lookupRec (add_impact (add_impact m d sv cf e1) d sv cf e2) d
            = some r2
          ∧ r2.severity = r1.severity ∧ r2.confidence = r1.confidence
          ∧ r2.evidences.length = r1.evidences.length + 1) := by
  constructor
  · intro regs d rec h
    rw [lookupRec_apply_registrations] at h
    have hnil : lookupRec [] d = none := rfl
    rw [hnil] at h
    cases hf : regs.filter (fun r => r.dtmi == d) with
    | nil =>
        rw [hf] at h
        simp at h
    | cons r rs =>
        rw [hf] at h
        simp only [List.foldl_cons] at h
        have hone : regStep none r
            = some (freshRec r.dtmi r.severity r.confidence r.evidence) := rfl
        rw [hone] at h
        rcases regStep_foldl_some rs
          (freshRec r.dtmi r.severity r.confidence r.evidence) with
          ⟨rec2, h1, h2, h3, h4, _, _⟩
        rw [h1] at h
        have hrec : rec = rec2 := by
          injection h with h
          exact h.symm
        subst hrec
        simp only [freshRec] at h2 h3 h4
        refine ⟨⟨?_, ?_⟩, ⟨?_, ?_⟩, ?_⟩
        · rw [h2]
          rcases foldl_max_cases (rs.map Reg.severity) r.severity with hc | hc
          · rw [hc]
            exact List.mem_cons_self _ _
          · simp only [List.map_cons]
            exact List.mem_cons_of_mem _ hc
        · intro x hx
          rw [h2]
          simp only [List.map_cons, List.mem_cons] at hx
          rcases hx with hx | hx
          · subst hx
            exact foldl_max_init _ _
          · exact foldl_max_mem _ _ _ hx
        · rw [h3]
          rcases foldl_max_cases (rs.map Reg.confidence) r.confidence with hc | hc
          · rw [hc]
            exact List.mem_cons_self _ _
          · simp only [List.map_cons]
            exact List.mem_cons_of_mem _ hc
        · intro x hx
          rw [h3]
          simp only [List.map_cons, List.mem_cons] at hx
          rcases hx with hx | hx
          · subst hx
            exact foldl_max_init _ _
          · exact foldl_max_mem _ _ _ hx
        · rw [h4]
          simp only [List.length_cons, List.length_nil]
          omega
  · intro m d sv cf e1 e2 r1 h1
    have h2 := lookupRec_add_impact (add_impact m d sv cf e1) d d sv cf e2
    rw [if_pos rfl, h1] at h2
    have hsv : sv ≤ r1.severity ∧ cf ≤ r1.confidence := by
      have h3 := lookupRec_add_impact m d d sv cf e1
      rw [if_pos rfl] at h3
      rw [h3] at h1
      cases hm : lookupRec m d with
      | none =>
          rw [hm] at h1
          injection h1 with h1
          rw [← h1]
          exact ⟨le_refl _, le_refl _⟩
      | some r0 =>
          rw [hm] at h1
          injection h1 with h1
          rw [← h1]
          exact ⟨le_max_right _ _, le_max_right _ _⟩
    refine ⟨mergeRec r1 sv cf e2, h2, ?_, ?_, ?_⟩
    · simp only [mergeRec]
      exact max_eq_left hsv.1
    · simp only [mergeRec]
      exact max_eq_left hsv.2
    · simp [mergeRec]

/-- Concrete registrations exercising the merge policy. -/
def c3Regs : List Reg :=
  [⟨"dtmi:com:example:X;1", 0.6, 0.9, ⟨"dt_key_added", "k1", some "2"⟩⟩,
   ⟨"dtmi:com:example:X;1", 0.8, 0.6, ⟨"dt_key_removed", "k2", some "2"⟩⟩]

/-- The merged record the run produces for that DTMI (severity
`max 0.6 0.8 = 0.8`, confidence `max 0.9 0.6 = 0.9`). -/
def c3Rec : ImpactRecord :=
  ⟨"dtmi:com:example:X;1", max 0.6 0.8, max 0.9 0.6,
   [⟨"dt_key_added", "k1", some "2"⟩, ⟨"dt_key_removed", "k2", some "2"⟩],
   false⟩

/-- Witness for C3 at a concrete registration sequence. -/
theorem impact_merge_policy_c3_witness :
    (lookupRec (apply_registrations [] c3Regs) "dtmi:com:example:X;1"
      = some c3Rec)
    ∧ ((c3Rec.severity ∈ (c3Regs.filter
          (fun r => r.dtmi == "dtmi:com:example:X;1")).map Reg.severity
        ∧ ∀ x ∈ (c3Regs.filter
            (fun r => r.dtmi == "dtmi:com:example:X;1")).map Reg.severity,
            x ≤ c3Rec.severity)
      ∧ (c3Rec.confidence ∈ (c3Regs.filter
          (fun r => r.dtmi == "dtmi:com:example:X;1")).map Reg.confidence
        ∧ ∀ x ∈ (c3Regs.filter
            (fun r => r.dtmi == "dtmi:com:example:X;1")).map Reg.confidence,
            x ≤ c3Rec.confidence)
      ∧ c3Rec.evidences.length = (c3Regs.filter
          (fun r => r.dtmi == "dtmi:com:example:X;1")).length) :=
  ⟨by rfl, impact_merge_policy_c3.1 c3Regs "dtmi:com:example:X;1" c3Rec (by rfl)⟩

/-! ## Claim theorems: graph-service error handling and deletion -/

/-- C6 — create_relationship atomicity: when either endpoint dtmi names no
existing twin, the call fails with `NotFound` and the store is unchanged
(in particular its edge table), because both `_require_twin` checks run
before `add_relationship` performs any write. -/
theorem create_relationship_atomic_c6 (s : Store) (a b : String)
    (nm : Option String)
    (h : get_twin_by_dtmi s a = none ∨ get_twin_by_dtmi s b = none) :
    (create_relationship s a b nm).1 = .error .notFound
    ∧ (create_relationship s a b nm).2 = s := by
  unfold create_relationship require_twin
  rcases h with h | h
  · rw [h]
    exact ⟨rfl, rfl⟩
  · cases ha : get_twin_by_dtmi s a with
    | none => exact ⟨rfl, rfl⟩
    | some t =>
        rw [h]
        exact ⟨rfl, rfl⟩

/-- Witness for C6 on the empty store. -/
theorem create_relationship_atomic_c6_witness :
    (get_twin_by_dtmi ({ } : Store) "dtmi:com:example:A;1" = none
      ∨ get_twin_by_dtmi ({ } : Store) "dtmi:com:example:B;1" = none)
    ∧ (create_relationship ({ } : Store) "dtmi:com:example:A;1"
        "dtmi:com:example:B;1" none).1 = .error .notFound
    ∧ (create_relationship ({ } : Store) "dtmi:com:example:A;1"
        "dtmi:com:example:B;1" none).2 = ({ } : Store) :=
  ⟨Or.inl (by rfl),
   create_relationship_atomic_c6 ({ } : Store) "dtmi:com:example:A;1"
     "dtmi:com:example:B;1" none (Or.inl (by rfl))⟩

/-- C9 counterexample: on the empty store neither validation getter raises —
`get_node_validation` and `get_edge_validation` both return the "no result"
value `None` for a missing twin / edge (the early `return None` in
`cymise/graph/service.py` lines 148-152 and 162-166), so the claim that they
surface `NotFound` as a hard failure is false. -/
theorem validation_accessors_c9_counterexample :
    get_twin_by_dtmi ({ } : Store) "dtmi:com:example:M;1" = none
    ∧ get_node_validation ({ } : Store) "dtmi:com:example:M;1" = .ok none
    ∧ get_node_validation ({ } : Store) "dtmi:com:example:M;1"
        ≠ .error .notFound
    ∧ get_relationship_by_id ({ } : Store) 1 = none
    ∧ get_edge_validation ({ } : Store) 1 = .ok none
    ∧ get_edge_validation ({ } : Store) 1 ≠ .error .notFound :=
  ⟨rfl, rfl, fun h => Except.noConfusion h, rfl, rfl,
   fun h => Except.noConfusion h⟩

/-- C9 amended — the validation getters degrade to "no result": for a dtmi
naming no twin, `get_node_validation` returns `None` rather than raising, and
for an id naming no edge, `get_edge_validation` returns `None` rather than
raising (the corresponding setters are the ones that raise `NotFound`). -/
theorem validation_accessors_c9_amended (s : Store) (d : String) (eid : Nat) :
    (get_twin_by_dtmi s d = none → get_node_validation s d = .ok none)
    ∧ (get_relationship_by_id s eid = none
        → get_edge_validation s eid = .ok none) := by
  constructor
  · intro h
    unfold get_node_validation
    rw [h]
  · intro h
    unfold get_edge_validation
    rw [h]

/-- Witness for the amended C9 on the empty store. -/
theorem validation_accessors_c9_amended_witness :
    (get_twin_by_dtmi ({ } : Store) "dtmi:com:example:W;1" = none
      ∧ get_node_validation ({ } : Store) "dtmi:com:example:W;1" = .ok none)
    ∧ (get_relationship_by_id ({ } : Store) 9 = none
      ∧ get_edge_validation ({ } : Store) 9 = .ok none) :=
  ⟨⟨by rfl,
    (validation_accessors_c9_amended ({ } : Store) "dtmi:com:example:W;1" 9).1
      (by rfl)⟩,
   ⟨by rfl,
    (validation_accessors_c9_amended ({ } : Store) "dtmi:com:example:W;1" 9).2
      (by rfl)⟩⟩

/-- A twin with one attached file (`twin_id` referencing it). -/
def c7Store : Store :=
  { twins := [{ id := 1, dtmi := "dtmi:com:example:T;1" }],
    edges := [{ id := 4, source_id := 1, target_id := 1 }],
    files := [{ id := 5, path := "part.step", twin_id := some 1 }] }

/-- C7 — evaluation at the failing input: deleting the referenced twin
deletes the attached `FileObject` row outright (the `all, delete-orphan` ORM
cascade on `TwinNode.files`), instead of preserving it with `twin_id`
nulled as the claim (and the `ondelete="SET NULL"` column declaration)
state; the edges touching the twin are deleted as claimed. -/
theorem twin_delete_files_c7 :
    (delete_twin_by_dtmi c7Store "dtmi:com:example:T;1").1 = true
    ∧ (delete_twin_by_dtmi c7Store "dtmi:com:example:T;1").2.files = []
    ∧ (delete_twin_by_dtmi c7Store "dtmi:com:example:T;1").2.edges = []
    ∧ (delete_twin_by_dtmi c7Store "dtmi:com:example:T;1").2.twins = [] :=
  ⟨rfl, by rfl, by rfl, by rfl⟩

/-! ## Claim C1: impact key resolution -/

/-- Numeric value of a digit string. -/
def digitsVal (l : List Char) : Nat :=
  l.foldl (fun n c => n * 10 + (c.toNat - 48)) 0

/-- The characters after the last semicolon of a string, `none` when the
string has no semicolon. -/
def lastSemiSuffix (l : List Char) : Option (List Char) :=
  l.foldl (fun acc c =>
    if c = Char.ofNat 59 then some []
    else acc.map (fun t => t ++ [c])) none

/-- The DTMI lexical shape as the SPEC words it: a string beginning with the
fixed scheme prefix and containing a semicolon-delimited positive-integer
version suffix.  This refinement definition follows the spec's words; the
code's own test (`dt_key.startswith("dtmi:")`) checks only the prefix. -/
def specDtmiShape (k : String) : Bool :=
  strStartsWith k "dtmi:" &&
    (match lastSemiSuffix k.data with
     | some suffix =>
         !suffix.isEmpty && suffix.all (fun c => c.isDigit)
           && digitsVal suffix != 0
     | none => false)

/-- A store whose only stitch mapping for file 7 is a `candidate`-status
(not accepted) mapping of `part-1`. -/
def c1Stitch : StitchCandidate :=
  { id := 1, file_object_id := 7, extracted_object_id := 3,
    dt_key := "part-1", target_dtmi := some "dtmi:com:example:Mapped;1",
    confidence := 0.7, status := "candidate" }

/-- Store for the C1 counterexample. -/
def c1Store : Store := { stitches := [c1Stitch] }

/-- C1 counterexample: (a) `"dtmi:noversion"` lacks the semicolon-delimited
positive-integer version suffix required by the claim's "if and only if",
yet `_resolve_dtmi` resolves it directly to itself (the code checks only the
`dtmi:` prefix); (b) `"part-1"` has no accepted mapping — its only mapping
has status `candidate` — yet it still resolves indirectly, contradicting
"only via an accepted stitch mapping". -/
theorem impact_resolution_c1_counterexample :
    (resolve_dtmi c1Store "dtmi:noversion" 7 = some ("dtmi:noversion", true)
      ∧ specDtmiShape "dtmi:noversion" = false)
    ∧ (resolve_dtmi c1Store "part-1" 7
        = some ("dtmi:com:example:Mapped;1", false)
      ∧ list_stitch_candidates c1Store 7 "accepted" = []) :=
  ⟨⟨by rfl, by rfl⟩, ⟨by rfl, by rfl⟩⟩

/-- C1 amended — key resolution as implemented: a key resolves directly to
itself (direct, hence registered with confidence 0.9) if and only if it
begins with the `dtmi:` prefix (no version-suffix check); a key without the
prefix resolves indirectly (confidence 0.6) exactly when some stitch mapping
for the file with status `accepted` or `candidate` has `dt_key` equal to the
key and a truthy (non-null, non-empty) `target_dtmi`, and it then resolves
to such a mapping's target; a key with neither resolves to nothing and
contributes no impact record. -/
theorem impact_resolution_c1_amended (s : Store) (fid : Nat) (k : String) :
    (strStartsWith k "dtmi:" = true → resolve_dtmi s k fid = some (k, true))
    ∧ (strStartsWith k "dtmi:" = false →
        ((∃ st ∈ s.stitches, st.file_object_id = fid
            ∧ (st.status = "accepted" ∨ st.status = "candidate")
            ∧ st.dt_key = k ∧ truthyTarget st = true) →
          ∃ d, resolve_dtmi s k fid = some (d, false)
            ∧ ∃ st ∈ s.stitches, st.file_object_id = fid
              ∧ (st.status = "accepted" ∨ st.status = "candidate")
              ∧ st.dt_key = k ∧ st.target_dtmi = some d)
        ∧ ((¬ ∃ st ∈ s.stitches, st.file_object_id = fid
              ∧ (st.status = "accepted" ∨ st.status = "candidate")
              ∧ st.dt_key = k ∧ truthyTarget st = true) →
          resolve_dtmi s k fid = none)) := by
  constructor
  · intro h
    unfold resolve_dtmi
    rw [h]
    simp
  · intro h
    have hpool : ∀ st, st ∈ list_stitches s fid "accepted"
          ++ list_stitches s fid "candidate" →
        st ∈ s.stitches ∧ st.file_object_id = fid
          ∧ (st.status = "accepted" ∨ st.status = "candidate") := by
      intro st hst
      rcases List.mem_append.mp hst with hst | hst <;>
        · rcases List.mem_filter.mp hst with ⟨hmem, hcond⟩
          simp only [Bool.and_eq_true, beq_iff_eq] at hcond
          exact ⟨hmem, hcond.1, by simp [hcond.2]⟩
    constructor
    · rintro ⟨st, hmem, hfid, hstatus, hkey, htr⟩
      have hstp : st ∈ list_stitches s fid "accepted"
          ++ list_stitches s fid "candidate" := by
        rcases hstatus with hs | hs
        · refine List.mem_append_left _ ?_
          refine List.mem_filter.mpr ⟨hmem, ?_⟩
          simp [hfid, hs]
        · refine List.mem_append_right _ ?_
          refine List.mem_filter.mpr ⟨hmem, ?_⟩
          simp [hfid, hs]
      have hpred : (fun st : StitchCandidate =>
          st.dt_key == k && truthyTarget st) st = true := by
        simp [hkey, htr]
      unfold resolve_dtmi
      rw [h]
      simp only [Bool.false_eq_true, if_false]
      cases hfo : (list_stitches s fid "accepted"
          ++ list_stitches s fid "candidate").find?
          (fun st => st.dt_key == k && truthyTarget st) with
      | none =>
          exfalso
          exact (List.find?_eq_none.mp hfo st hstp) hpred
      | some st0 =>
          have hmem0 := hpool st0 (List.mem_of_find?_eq_some hfo)
          have hsat := List.find?_some hfo
          simp only [Bool.and_eq_true, beq_iff_eq] at hsat
          cases htd : st0.target_dtmi with
          | none =>
              exfalso
              have := hsat.2
              rw [truthyTarget, htd] at this
              exact Bool.noConfusion this
          | some t =>
              refine ⟨t, ?_, st0, hmem0.1, hmem0.2.1, hmem0.2.2, hsat.1, htd⟩
              simp [htd]
    · intro hno
      unfold resolve_dtmi
      rw [h]
      simp only [Bool.false_eq_true, if_false]
      have hfo : (list_stitches s fid "accepted"
          ++ list_stitches s fid "candidate").find?
          (fun st => st.dt_key == k && truthyTarget st) = none := by
        rw [List.find?_eq_none]
        intro st hst hpred
        simp only [Bool.and_eq_true, beq_iff_eq] at hpred
        rcases hpool st hst with ⟨hmem, hfid, hstatus⟩
        exact hno ⟨st, hmem, hfid, hstatus, hpred.1, hpred.2⟩
      rw [hfo]

/-- Witness for the amended C1: the candidate mapping of `part-1` resolves
indirectly, and a prefixed key resolves directly. -/
theorem impact_resolution_c1_witness :
    (strStartsWith "part-1" "dtmi:" = false
      ∧ ∃ d, resolve_dtmi c1Store "part-1" 7 = some (d, false)
        ∧ ∃ st ∈ c1Store.stitches, st.file_object_id = 7
          ∧ (st.status = "accepted" ∨ st.status = "candidate")
          ∧ st.dt_key = "part-1" ∧ st.target_dtmi = some d)
    ∧ (strStartsWith "dtmi:q" "dtmi:" = true
      ∧ resolve_dtmi c1Store "dtmi:q" 7 = some ("dtmi:q", true)) :=
  ⟨⟨by rfl,
    ((impact_resolution_c1_amended c1Store 7 "part-1").2 (by rfl)).1
      ⟨c1Stitch, List.mem_cons_self c1Stitch [], rfl, Or.inr rfl, rfl,
        by rfl⟩⟩,
   ⟨by rfl, (impact_resolution_c1_amended c1Store 7 "dtmi:q").1 (by rfl)⟩⟩

/-! ## Lemmas about the impacted map structure and the propagation phase -/

/-- Structural invariant of the `impacted_map`: keys are distinct, each
record's `dtmi` equals its key and direct records are never flagged as
propagated. -/
def MapInv (m : List (String × ImpactRecord)) : Prop :=
  (m.map Prod.fst).Nodup
    ∧ ∀ p ∈ m, p.2.dtmi = p.1 ∧ p.2.is_propagated = false

theorem add_impact_MapInv (m : List (String × ImpactRecord)) (d : String)
    (sv cf : ℚ) (ev : ImpactEvidence) (h : MapInv m) :
    MapInv (add_impact m d sv cf ev) := by
  rw [add_impact_eq]
  by_cases hany : m.any (fun p => p.1 == d)
  · simp only [hany, if_true]
    constructor
    · rw [List.map_map]
      have : ((fun p : String × ImpactRecord => p.1) ∘ fun p =>
          if p.1 == d then (p.1, mergeRec p.2 sv cf ev) else p)
          = fun p : String × ImpactRecord => p.1 := by
        funext q
        by_cases hq : q.1 = d <;> simp [hq]
      rw [show (Prod.fst : String × ImpactRecord → String)
            = fun p : String × ImpactRecord => p.1 from rfl, this]
      exact h.1
    · intro p hp
      rcases List.mem_map.mp hp with ⟨q, hq, hqe⟩
      by_cases hqd : (q.1 == d) = true
      · rw [if_pos hqd] at hqe
        rw [← hqe]
        have := h.2 q hq
        simp [mergeRec, this.1, this.2]
      · rw [if_neg hqd] at hqe
        rw [← hqe]
        exact h.2 q hq
  · simp only [hany, Bool.false_eq_true, if_false]
    constructor
    · rw [List.map_append]
      rw [List.nodup_append]
      refine ⟨h.1, by simp, ?_⟩
      intro x hx hy
      simp only [List.map_cons, List.map_nil, List.mem_cons,
        List.not_mem_nil, or_false] at hy
      subst hy
      rcases List.mem_map.mp hx with ⟨q, hq, hqe⟩
      apply List.any_eq_true.not.mp hany
      exact ⟨q, hq, by simp [hqe]⟩
    · intro p hp
      rcases List.mem_append.mp hp with hp | hp
      · exact h.2 p hp
      · simp only [List.mem_cons, List.not_mem_nil, or_false] at hp
        subst hp
        simp [freshRec]

theorem apply_registrations_MapInv (regs : List Reg)
    (m : List (String × ImpactRecord)) (h : MapInv m) :
    MapInv (apply_registrations m regs) := by
  induction regs generalizing m with
  | nil => exact h
  | cons r rs ih =>
      exact ih _ (add_impact_MapInv m r.dtmi r.severity r.confidence
        r.evidence h)

theorem bump_MapInv (m : List (String × ImpactRecord)) (h : MapInv m) :
    MapInv (bump_impacted m) := by
  unfold bump_impacted
  constructor
  · rw [List.map_map]
    have : ((fun p : String × ImpactRecord => p.1) ∘ fun p =>
        (p.1, { p.2 with
          severity := min 1.0 (p.2.severity + 0.2),
          evidences := p.2.evidences ++
            [{ kind := "structural_change",
               detail := "structural change detected", source := none }] }))
        = fun p : String × ImpactRecord => p.1 := by
      funext q
      rfl
    rw [show (Prod.fst : String × ImpactRecord → String)
          = fun p : String × ImpactRecord => p.1 from rfl, this]
    exact h.1
  · intro p hp
    rcases List.mem_map.mp hp with ⟨q, hq, hqe⟩
    rw [← hqe]
    have := h.2 q hq
    simp [this.1, this.2]

/-- The final impacted map of one `compute_impact_from_diff` run. -/
def impactedMapOf (s : Store) (fid : Nat) (diff : DiffDict) :
    List (String × ImpactRecord) :=
  let m0 := apply_registrations [] (regsOfDiff s fid diff)
  if structural_changed diff.structural then bump_impacted m0 else m0

theorem impactedMapOf_MapInv (s : Store) (fid : Nat) (diff : DiffDict) :
    MapInv (impactedMapOf s fid diff) := by
  unfold impactedMapOf
  have h0 : MapInv (apply_registrations [] (regsOfDiff s fid diff)) :=
    apply_registrations_MapInv _ [] ⟨List.nodup_nil, by simp⟩
  by_cases hs : structural_changed diff.structural
  · simp only [hs, if_true]
    exact bump_MapInv _ h0
  · simp only [hs, Bool.false_eq_true, if_false]
    exact h0

theorem compute_impact_eq (s : Store) (fid : Nat) (diff : DiffDict)
    (hops : Int) (directed : Bool) :
    compute_impact_from_diff s fid diff hops directed =
      { file_object_id := fid,
        kind := diff.kind,
        old_extracted_object_id := diff.old_extracted_object_id,
        new_extracted_object_id := diff.new_extracted_object_id,
        impacted := (impactedMapOf s fid diff).map Prod.snd,
        propagated :=
          if 0 < hops then
            propagate_all s directed fid
              ((impactedMapOf s fid diff).map Prod.fst)
          else [],
        summary := "impacted=" ++ toString (impactedMapOf s fid diff).length
          ++ ", propagated=" ++ toString
            (if 0 < hops then
              propagate_all s directed fid
                ((impactedMapOf s fid diff).map Prod.fst)
            else []).length
          ++ ", dt_keys +" ++ toString diff.dt_key_added.length
          ++ " -" ++ toString diff.dt_key_removed.length } := rfl

theorem map_dtmi_of_MapInv (m : List (String × ImpactRecord)) (h : MapInv m) :
    (m.map Prod.snd).map ImpactRecord.dtmi = m.map Prod.fst := by
  rw [List.map_map]
  apply List.map_congr_left
  intro p hp
  exact (h.2 p hp).1

/-- Invariant of the propagated accumulator: distinct dtmis, all flagged
propagated, none directly impacted. -/
def PropInv (keys : List String) (acc : List ImpactRecord) : Prop :=
  (acc.map ImpactRecord.dtmi).Nodup
    ∧ ∀ rec ∈ acc, rec.is_propagated = true
        ∧ keys.contains rec.dtmi = false

theorem propagate_one_PropInv (keys : List String) (fid : Nat) (o : String)
    (acc : List ImpactRecord) (nb : String) (h : PropInv keys acc) :
    PropInv keys (propagate_one keys fid o acc nb) := by
  unfold propagate_one
  by_cases hc : (keys.contains nb || acc.any (fun p => p.dtmi == nb)) = true
  · simp only [hc, if_true]
    exact h
  · simp only [hc, Bool.false_eq_true, if_false]
    simp only [Bool.or_eq_true, not_or] at hc
    constructor
    · rw [List.map_append]
      rw [List.nodup_append]
      refine ⟨h.1, by simp, ?_⟩
      intro x hx hy
      simp only [List.map_cons, List.map_nil, List.mem_cons,
        List.not_mem_nil, or_false] at hy
      subst hy
      rcases List.mem_map.mp hx with ⟨rec, hrec, hrece⟩
      apply hc.2
      apply List.any_eq_true.mpr
      exact ⟨rec, hrec, by simp [hrece]⟩
    · intro rec hrec
      rcases List.mem_append.mp hrec with hh | hh
      · exact h.2 rec hh
      · simp only [List.mem_cons, List.not_mem_nil, or_false] at hh
        subst hh
        refine ⟨rfl, ?_⟩
        simp only [Bool.not_eq_true] at hc
        exact hc.1

theorem foldl_propagate_one_PropInv (keys : List String) (fid : Nat)
    (o : String) (nbrs : List String) (acc : List ImpactRecord)
    (h : PropInv keys acc) :
    PropInv keys (nbrs.foldl (propagate_one keys fid o) acc) := by
  induction nbrs generalizing acc with
  | nil => exact h
  | cons nb rest ih =>
      exact ih _ (propagate_one_PropInv keys fid o acc nb h)

theorem propagate_all_PropInv (s : Store) (directed : Bool) (fid : Nat)
    (keys : List String) :
    PropInv keys (propagate_all s directed fid keys) := by
  unfold propagate_all
  have hgen : ∀ (ks : List String) (acc : List ImpactRecord),
      PropInv keys acc →
      PropInv keys (ks.foldl (fun acc o =>
        (impact_neighbors s o directed).foldl
          (propagate_one keys fid o) acc) acc) := by
    intro ks
    induction ks with
    | nil => intro acc h; exact h
    | cons o rest ih =>
        intro acc h
        exact ih _ (foldl_propagate_one_PropInv keys fid o _ acc h)
  exact hgen keys [] ⟨List.nodup_nil, by simp⟩

theorem mem_foldl_propagate_one (keys : List String) (fid : Nat) (o : String)
    (nbrs : List String) (acc : List ImpactRecord) (n : String) :
    (n ∈ (nbrs.foldl (propagate_one keys fid o) acc).map ImpactRecord.dtmi)
      ↔ n ∈ acc.map ImpactRecord.dtmi
        ∨ (n ∈ nbrs ∧ keys.contains n = false) := by
  induction nbrs generalizing acc with
  | nil => simp
  | cons nb rest ih =>
      simp only [List.foldl_cons]
      rw [ih]
      unfold propagate_one
      by_cases hc : (keys.contains nb || acc.any (fun p => p.dtmi == nb)) = true
      · simp only [hc, if_true]
        simp only [Bool.or_eq_true, List.any_eq_true, beq_iff_eq] at hc
        constructor
        · rintro (hm | hm)
          · exact Or.inl hm
          · exact Or.inr ⟨List.mem_cons_of_mem _ hm.1, hm.2⟩
        · rintro (hm | ⟨hm1, hm2⟩)
          · exact Or.inl hm
          · rcases List.mem_cons.mp hm1 with he | he
            · subst he
              rcases hc with hc | ⟨rec, hrec, hrece⟩
              · rw [hc] at hm2
                exact Bool.noConfusion hm2
              · left
                apply List.mem_map.mpr
                exact ⟨rec, hrec, hrece⟩
            · exact Or.inr ⟨he, hm2⟩
      · simp only [hc, Bool.false_eq_true, if_false]
        simp only [Bool.or_eq_true, not_or, Bool.not_eq_true,
          List.any_eq_true, beq_iff_eq] at hc
        simp only [List.map_append, List.mem_append, List.map_cons,
          List.map_nil, List.mem_cons, List.not_mem_nil, or_false]
        constructor
        · rintro ((hm | hm) | hm)
          · exact Or.inl hm
          · subst hm
            exact Or.inr ⟨Or.inl rfl, hc.1⟩
          · exact Or.inr ⟨Or.inr hm.1, hm.2⟩
        · rintro (hm | ⟨hm1, hm2⟩)
          · exact Or.inl (Or.inl hm)
          · rcases hm1 with he | he
            · subst he
              exact Or.inl (Or.inr rfl)
            · exact Or.inr ⟨he, hm2⟩

theorem mem_propagate_all (s : Store) (directed : Bool) (fid : Nat)
    (keys : List String) (n : String) :
    n ∈ (propagate_all s directed fid keys).map ImpactRecord.dtmi
      ↔ keys.contains n = false
        ∧ ∃ o ∈ keys, n ∈ impact_neighbors s o directed := by
  unfold propagate_all
  have hgen : ∀ (ks : List String) (acc : List ImpactRecord),
      (n ∈ (ks.foldl (fun acc o =>
          (impact_neighbors s o directed).foldl
            (propagate_one keys fid o) acc) acc).map ImpactRecord.dtmi)
        ↔ n ∈ acc.map ImpactRecord.dtmi
          ∨ (keys.contains n = false
            ∧ ∃ o ∈ ks, n ∈ impact_neighbors s o directed) := by
    intro ks
    induction ks with
    | nil => intro acc; simp
    | cons o rest ih =>
        intro acc
        simp only [List.foldl_cons]
        rw [ih]
        rw [mem_foldl_propagate_one]
        constructor
        · rintro ((hm | hm) | hm)
          · exact Or.inl hm
          · exact Or.inr ⟨hm.2, o, List.mem_cons_self _ _, hm.1⟩
          · exact Or.inr ⟨hm.1, by
              rcases hm.2 with ⟨o2, ho2, hn2⟩
              exact ⟨o2, List.mem_cons_of_mem _ ho2, hn2⟩⟩
        · rintro (hm | ⟨hcont, o2, ho2, hn2⟩)
          · exact Or.inl (Or.inl hm)
          · rcases List.mem_cons.mp ho2 with he | he
            · subst he
              exact Or.inl (Or.inr ⟨hn2, hcont⟩)
            · exact Or.inr ⟨hcont, o2, he, hn2⟩
  rw [hgen keys []]
  simp

theorem propagate_all_shape (s : Store) (directed : Bool) (fid : Nat)
    (keys : List String) :
    ∀ rec ∈ propagate_all s directed fid keys,
      rec.severity = 0.3 ∧ rec.confidence = 0.3 ∧ rec.is_propagated = true
      ∧ keys.contains rec.dtmi = false
      ∧ ∃ o ∈ keys, rec.dtmi ∈ impact_neighbors s o directed
        ∧ rec.evidences = [⟨"propagated", "propagated from " ++ o,
            some (toString fid)⟩] := by
  unfold propagate_all
  have hinner : ∀ (o : String), o ∈ keys →
      ∀ (nbrs : List String),
        (∀ nb ∈ nbrs, nb ∈ impact_neighbors s o directed) →
      ∀ (acc : List ImpactRecord),
        (∀ rec ∈ acc, rec.severity = 0.3 ∧ rec.confidence = 0.3
          ∧ rec.is_propagated = true ∧ keys.contains rec.dtmi = false
          ∧ ∃ o2 ∈ keys, rec.dtmi ∈ impact_neighbors s o2 directed
            ∧ rec.evidences = [⟨"propagated", "propagated from " ++ o2,
                some (toString fid)⟩]) →
      ∀ rec ∈ nbrs.foldl (propagate_one keys fid o) acc,
        rec.severity = 0.3 ∧ rec.confidence = 0.3
          ∧ rec.is_propagated = true ∧ keys.contains rec.dtmi = false
          ∧ ∃ o2 ∈ keys, rec.dtmi ∈ impact_neighbors s o2 directed
            ∧ rec.evidences = [⟨"propagated", "propagated from " ++ o2,
                some (toString fid)⟩] := by
    intro o ho nbrs
    induction nbrs with
    | nil => intro hsub acc hacc; exact hacc
    | cons nb rest ih =>
        intro hsub acc hacc
        simp only [List.foldl_cons]
        apply ih
        · intro x hx
          exact hsub x (List.mem_cons_of_mem _ hx)
        · intro rec hrec
          unfold propagate_one at hrec
          by_cases hc : (keys.contains nb
              || acc.any (fun p => p.dtmi == nb)) = true
          · rw [if_pos hc] at hrec
            exact hacc rec hrec
          · rw [if_neg hc] at hrec
            simp only [Bool.or_eq_true, not_or, Bool.not_eq_true] at hc
            rcases List.mem_append.mp hrec with hh | hh
            · exact hacc rec hh
            · simp only [List.mem_cons, List.not_mem_nil, or_false] at hh
              subst hh
              refine ⟨rfl, rfl, rfl, hc.1, o, ho, ?_, rfl⟩
              exact hsub nb (List.mem_cons_self _ _)
  have hgen : ∀ (ks : List String), (∀ o ∈ ks, o ∈ keys) →
      ∀ (acc : List ImpactRecord),
        (∀ rec ∈ acc, rec.severity = 0.3 ∧ rec.confidence = 0.3
          ∧ rec.is_propagated = true ∧ keys.contains rec.dtmi = false
          ∧ ∃ o2 ∈ keys, rec.dtmi ∈ impact_neighbors s o2 directed
            ∧ rec.evidences = [⟨"propagated", "propagated from " ++ o2,
                some (toString fid)⟩]) →
      ∀ rec ∈ ks.foldl (fun acc o =>
          (impact_neighbors s o directed).foldl
            (propagate_one keys fid o) acc) acc,
        rec.severity = 0.3 ∧ rec.confidence = 0.3
          ∧ rec.is_propagated = true ∧ keys.contains rec.dtmi = false
          ∧ ∃ o2 ∈ keys, rec.dtmi ∈ impact_neighbors s o2 directed
            ∧ rec.evidences = [⟨"propagated", "propagated from " ++ o2,
                some (toString fid)⟩] := by
    intro ks
    induction ks with
    | nil => intro hsub acc hacc; exact hacc
    | cons o rest ih =>
        intro hsub acc hacc
        simp only [List.foldl_cons]
        apply ih
        · intro x hx
          exact hsub x (List.mem_cons_of_mem _ hx)
        · exact hinner o (hsub o (List.mem_cons_self _ _)) _
            (fun nb hnb => hnb) acc hacc
  exact hgen keys (fun o ho => ho) [] (by simp)

theorem contains_iff_mem_str {l : List String} {a : String} :
    l.contains a = true ↔ a ∈ l := by
  simp [List.contains]

/-- C10 — ImpactResult structural invariant: every result of
`compute_impact_from_diff` holds at most one impacted record per DTMI and at
most one propagated record per DTMI, the impacted and propagated DTMI sets
are disjoint, impacted records carry `is_propagated = false` and propagated
records carry `is_propagated = true`. -/
theorem impact_result_invariant_c10 (s : Store) (fid : Nat) (diff : DiffDict)
    (hops : Int) (directed : Bool) :
    (((compute_impact_from_diff s fid diff hops directed).impacted.map
        ImpactRecord.dtmi).Nodup)
    ∧ (((compute_impact_from_diff s fid diff hops directed).propagated.map
        ImpactRecord.dtmi).Nodup)
    ∧ (∀ d ∈ (compute_impact_from_diff s fid diff hops directed).impacted.map
          ImpactRecord.dtmi,
        d ∉ (compute_impact_from_diff s fid diff hops directed).propagated.map
          ImpactRecord.dtmi)
    ∧ (∀ rec ∈ (compute_impact_from_diff s fid diff hops directed).impacted,
        rec.is_propagated = false)
    ∧ (∀ rec ∈ (compute_impact_from_diff s fid diff hops directed).propagated,
        rec.is_propagated = true) := by
  simp only [compute_impact_eq]
  have hinv := impactedMapOf_MapInv s fid diff
  have hdt := map_dtmi_of_MapInv (impactedMapOf s fid diff) hinv
  refine ⟨?_, ?_, ?_, ?_, ?_⟩
  · rw [hdt]
    exact hinv.1
  · by_cases hh : (0 : Int) < hops
    · simp only [hh, if_true]
      exact (propagate_all_PropInv s directed fid _).1
    · simp only [hh, if_false]
      simp
  · intro d hd hp
    rw [hdt] at hd
    by_cases hh : (0 : Int) < hops
    · simp only [hh, if_true] at hp
      rcases List.mem_map.mp hp with ⟨rec, hrec, hrece⟩
      have := ((propagate_all_PropInv s directed fid
        ((impactedMapOf s fid diff).map Prod.fst)).2 rec hrec).2
      rw [hrece] at this
      rw [(contains_iff_mem_str).mpr hd] at this
      exact Bool.noConfusion this
    · simp only [hh, if_false] at hp
      simp at hp
  · intro rec hrec
    rcases List.mem_map.mp hrec with ⟨p, hp, hpe⟩
    rw [← hpe]
    exact (hinv.2 p hp).2
  · intro rec hrec
    by_cases hh : (0 : Int) < hops
    · simp only [hh, if_true] at hrec
      exact ((propagate_all_PropInv s directed fid _).2 rec hrec).1
    · simp only [hh, if_false] at hrec
      simp at hrec

/-- C2 — Impact propagation: the `hops` parameter only gates propagation on
or off — any `hops ≥ 1` produces the very same result as `hops = 1`, and
`hops = 0` produces an empty propagated list; in the propagated list of a
run, a DTMI appears exactly once if and only if it is a graph neighbor
(outgoing only when directed, outgoing plus incoming otherwise) of some
directly-impacted DTMI and is not itself directly impacted; every propagated
record carries severity 0.3, confidence 0.3, `is_propagated = true` and a
single evidence naming an origin it is a neighbor of; a directly-impacted
DTMI never appears among the propagated records. -/
theorem impact_propagation_c2 (s : Store) (fid : Nat) (diff : DiffDict)
    (directed : Bool) :
    (∀ hops : Int, 1 ≤ hops →
      compute_impact_from_diff s fid diff hops directed
        = compute_impact_from_diff s fid diff 1 directed)
    ∧ (compute_impact_from_diff s fid diff 0 directed).propagated = []
    ∧ (∀ n : String,
        ((compute_impact_from_diff s fid diff 1 directed).propagated.map
          ImpactRecord.dtmi).count n = 1
        ↔ (n ∉ (compute_impact_from_diff s fid diff 1 directed).impacted.map
              ImpactRecord.dtmi
          ∧ ∃ o ∈ (compute_impact_from_diff s fid diff 1 directed).impacted.map
              ImpactRecord.dtmi, n ∈ impact_neighbors s o directed))
    ∧ (∀ rec ∈ (compute_impact_from_diff s fid diff 1 directed).propagated,
        rec.severity = 0.3 ∧ rec.confidence = 0.3
        ∧ rec.is_propagated = true
        ∧ rec.dtmi ∉ (compute_impact_from_diff s fid diff 1
            directed).impacted.map ImpactRecord.dtmi
        ∧ ∃ o ∈ (compute_impact_from_diff s fid diff 1 directed).impacted.map
            ImpactRecord.dtmi, rec.dtmi ∈ impact_neighbors s o directed
          ∧ rec.evidences = [⟨"propagated", "propagated from " ++ o,
              some (toString fid)⟩]) := by
  have hinv := impactedMapOf_MapInv s fid diff
  have hdt := map_dtmi_of_MapInv (impactedMapOf s fid diff) hinv
  refine ⟨?_, ?_, ?_, ?_⟩
  · intro hops hh
    simp only [compute_impact_eq]
    have hp1 : (0 : Int) < hops := by omega
    have hp2 : (0 : Int) < 1 := by omega
    simp only [if_pos hp1, if_pos hp2]
  · simp only [compute_impact_eq]
    simp
  · intro n
    simp only [compute_impact_eq]
    simp only [show ((0:Int) < 1) = True by simp, if_true]
    rw [hdt]
    set keys := (impactedMapOf s fid diff).map Prod.fst with hkeys
    have hnodup := (propagate_all_PropInv s directed fid keys).1
    constructor
    · intro hcount
      have hmem : n ∈ (propagate_all s directed fid keys).map
          ImpactRecord.dtmi := by
        have : 0 < ((propagate_all s directed fid keys).map
            ImpactRecord.dtmi).count n := by omega
        exact List.count_pos_iff.mp this
      have := (mem_propagate_all s directed fid keys n).mp hmem
      refine ⟨?_, this.2⟩
      intro hn
      rw [(contains_iff_mem_str).mpr hn] at this
      exact Bool.noConfusion this.1
    · rintro ⟨hn, ho⟩
      have hcont : keys.contains n = false := by
        cases hcc : keys.contains n with
        | false => rfl
        | true => exact absurd (contains_iff_mem_str.mp hcc) hn
      have hmem : n ∈ (propagate_all s directed fid keys).map
          ImpactRecord.dtmi :=
        (mem_propagate_all s directed fid keys n).mpr ⟨hcont, ho⟩
      exact List.count_eq_one_of_mem hnodup hmem
  · intro rec hrec
    simp only [compute_impact_eq] at hrec ⊢
    simp only [show ((0:Int) < 1) = True by simp, if_true] at hrec
    rw [hdt]
    have := propagate_all_shape s directed fid
      ((impactedMapOf s fid diff).map Prod.fst) rec hrec
    refine ⟨this.1, this.2.1, this.2.2.1, ?_, this.2.2.2.2⟩
    intro hn
    have hcont := this.2.2.2.1
    rw [(contains_iff_mem_str).mpr hn] at hcont
    exact Bool.noConfusion hcont

/-- The spec's propagation example graph: Root → Neighbor. -/
def c2Store : Store :=
  { twins := [{ id := 1, dtmi := "dtmi:com:example:Root;1" },
              { id := 2, dtmi := "dtmi:com:example:Neighbor;1" }],
    edges := [{ id := 3, source_id := 1, target_id := 2 }] }

/-- A diff adding the Root DTMI. -/
def c2Diff : DiffDict :=
  { kind := "kicad_ecad", old_extracted_object_id := 1,
    new_extracted_object_id := 2,
    dt_key_added := ["dtmi:com:example:Root;1"] }

/-- The propagated record the example produces. -/
def c2PropRec : ImpactRecord :=
  { dtmi := "dtmi:com:example:Neighbor;1", severity := 0.3,
    confidence := 0.3,
    evidences := [⟨"propagated",
      "propagated from dtmi:com:example:Root;1", some "1"⟩],
    is_propagated := true }

/-- Witness for C2 on the Root→Neighbor example: hops=2 yields the same
result as hops=1, and the Neighbor record satisfies the propagated-record
characterization. -/
theorem impact_propagation_c2_witness :
    ((1 : Int) ≤ 2
      ∧ compute_impact_from_diff c2Store 1 c2Diff 2 true
          = compute_impact_from_diff c2Store 1 c2Diff 1 true)
    ∧ (compute_impact_from_diff c2Store 1 c2Diff 0 true).propagated = []
    ∧ (c2PropRec ∈ (compute_impact_from_diff c2Store 1 c2Diff 1
          true).propagated
      ∧ c2PropRec.severity = 0.3 ∧ c2PropRec.confidence = 0.3
      ∧ c2PropRec.is_propagated = true
      ∧ c2PropRec.dtmi ∉ (compute_impact_from_diff c2Store 1 c2Diff 1
          true).impacted.map ImpactRecord.dtmi
      ∧ ∃ o ∈ (compute_impact_from_diff c2Store 1 c2Diff 1
            true).impacted.map ImpactRecord.dtmi,
          c2PropRec.dtmi ∈ impact_neighbors c2Store o true
          ∧ c2PropRec.evidences = [⟨"propagated", "propagated from " ++ o,
              some (toString (1 : Nat))⟩]) :=
  ⟨⟨by decide, (impact_propagation_c2 c2Store 1 c2Diff true).1 2 (by decide)⟩,
   (impact_propagation_c2 c2Store 1 c2Diff true).2.1,
   (List.mem_cons_self c2PropRec [] :
      c2PropRec ∈ (compute_impact_from_diff c2Store 1 c2Diff 1
        true).propagated),
   (impact_propagation_c2 c2Store 1 c2Diff true).2.2.2 c2PropRec
     (List.mem_cons_self c2PropRec [])⟩

/-! ## Claim C8: diff data-shape tolerance -/

/-- `dt_keys` shapes for which the set comprehension of `_extract_dt_keys`
iterates without raising: the value (after `or []`) is a list, a string or a
dict.  A truthy int or bool is not iterable. -/
def benignDtKeys (data : PyVal) : Bool :=
  match data with
  | .pdict kvs =>
      match pyOr (pyGet kvs "dt_keys") (.plist []) with
      | .pint _ => false
      | .pbool _ => false
      | .pnone => false
      | _ => true
  | _ => true

/-- The shapes the claim calls "treated as empty": non-dict data, or a
missing / falsy `dt_keys` field. -/
def emptyDtKeysCase (data : PyVal) : Bool :=
  match data with
  | .pdict kvs => !(pyTruthy (pyGet kvs "dt_keys"))
  | _ => true

theorem extract_dt_keys_ok_of_benign (data : PyVal)
    (h : benignDtKeys data = true) :
    ∃ ks, extract_dt_keys data = .ok ks := by
  cases data with
  | pdict kvs =>
      simp only [benignDtKeys] at h
      cases hv : pyOr (pyGet kvs "dt_keys") (.plist []) with
      | plist xs =>
          simp only [extract_dt_keys]
          rw [hv]
          exact ⟨_, rfl⟩
      | pstr st =>
          simp only [extract_dt_keys]
          rw [hv]
          exact ⟨_, rfl⟩
      | pdict kv2 =>
          simp only [extract_dt_keys]
          rw [hv]
          exact ⟨_, rfl⟩
      | pint n => rw [hv] at h; exact Bool.noConfusion h
      | pbool b => rw [hv] at h; exact Bool.noConfusion h
      | pnone => rw [hv] at h; exact Bool.noConfusion h
  | pnone => exact ⟨[], rfl⟩
  | pbool b => exact ⟨[], rfl⟩
  | pint n => exact ⟨[], rfl⟩
  | pstr st => exact ⟨[], rfl⟩
  | plist xs => exact ⟨[], rfl⟩

/-- Store for the C8 counterexample: the newer snapshot's `dt_keys` is the
integer 5 — truthy, so not replaced by `[]`, and not iterable. -/
def c8Store : Store :=
  { files := [{ id := 1, path := "doc.json" }],
    extracted :=
      [{ id := 1, kind := "kicad_ecad",
         data := .pdict [("dt_keys", .plist [])], file_object_id := 1 },
       { id := 2, kind := "kicad_ecad",
         data := .pdict [("dt_keys", .pint 5)], file_object_id := 1 }] }

/-- C8 counterexample: with `dt_keys = 5` (a non-list value) in the newer
snapshot, `diff_extracted_objects` raises `TypeError` (the set comprehension
`{k for k in keys ...}` iterates a non-iterable), so the claim that a
non-list `dt_keys` never raises is false. -/
theorem diff_data_shape_c8_counterexample :
    diff_extracted_objects c8Store 1 2 = .error .typeError := by rfl

/-- C8 amended — data-shape tolerance as implemented: non-dict `data` and a
missing or falsy `dt_keys` yield the empty key set and processing continues;
more generally the diff completes without raising whenever every snapshot's
`dt_keys` (after the `or []` replacement) is a list, string or dict — a
string is iterated into its characters and a dict into its keys — while a
truthy non-iterable `dt_keys` (an int or bool, as in the counterexample)
raises `TypeError`. -/
theorem diff_data_shape_c8_amended :
    (∀ data : PyVal, emptyDtKeysCase data = true
      → extract_dt_keys data = .ok [])
    ∧ (∀ (s : Store) (oid nid : Nat),
        (∀ eo ∈ s.extracted, benignDtKeys eo.data = true)
        → ∃ r, diff_extracted_objects s oid nid = .ok r) := by
  constructor
  · intro data h
    cases data with
    | pdict kvs =>
        unfold emptyDtKeysCase at h
        simp only [Bool.not_eq_eq_eq_not, Bool.not_true] at h
        simp only [extract_dt_keys, pyOr]
        rw [h]
        simp
    | pnone => rfl
    | pbool b => rfl
    | pint n => rfl
    | pstr st => rfl
    | plist xs => rfl
  · intro s oid nid hall
    cases ho : get_extracted_object_by_id s oid with
    | none => exact ⟨none, by simp [diff_extracted_objects, ho]⟩
    | some old_obj =>
        cases hn : get_extracted_object_by_id s nid with
        | none => exact ⟨none, by simp [diff_extracted_objects, ho, hn]⟩
        | some new_obj =>
            have hom : old_obj ∈ s.extracted :=
              List.mem_of_find?_eq_some ho
            have hnm : new_obj ∈ s.extracted :=
              List.mem_of_find?_eq_some hn
            rcases extract_dt_keys_ok_of_benign old_obj.data
              (hall old_obj hom) with ⟨ks1, hk1⟩
            rcases extract_dt_keys_ok_of_benign new_obj.data
              (hall new_obj hnm) with ⟨ks2, hk2⟩
            simp only [diff_extracted_objects, ho, hn]
            rw [hk1, hk2]
            exact ⟨_, rfl⟩

/-- Witness for the amended C8: non-dict data gives the empty key set, and a
store whose snapshots have missing or empty `dt_keys` diffs without
raising. -/
def c8BenignStore : Store :=
  { files := [{ id := 1, path := "doc.json" }],
    extracted :=
      [{ id := 1, kind := "other", data := .pint 7, file_object_id := 1 },
       { id := 2, kind := "other",
         data := .pdict [("foo", .pint 1)], file_object_id := 1 }] }

/-- Witness theorem for C8 amended. -/
theorem diff_data_shape_c8_amended_witness :
    (emptyDtKeysCase (.pint 7) = true ∧ extract_dt_keys (.pint 7) = .ok [])
    ∧ ((∀ eo ∈ c8BenignStore.extracted, benignDtKeys eo.data = true)
      ∧ ∃ r, diff_extracted_objects c8BenignStore 1 2 = .ok r) :=
  ⟨⟨by rfl, diff_data_shape_c8_amended.1 (.pint 7) (by rfl)⟩,
   ⟨by decide,
    diff_data_shape_c8_amended.2 c8BenignStore 1 2 (by decide)⟩⟩

/-! ## Reachability characterization of the bounded BFS (for C4) -/

/-- The ids actually traversable from `nid` in one hop: the far endpoints of
the walkable edges, restricted to ids that name an existing twin (the code
skips neighbors whose `get_twin_by_id` lookup fails). -/
def nbrIds (s : Store) (directed : Bool) (nid : Nat) : List Nat :=
  ((edges_to_walk s directed nid).map (walk_neighbor directed nid)).filter
    (fun i => (get_twin_by_id s i).isSome)

/-- The ≤ r-hop reachability ball from `v` over `nbrIds`. -/
def reach (s : Store) (directed : Bool) : Nat → Nat → Finset Nat
  | 0, v => {v}
  | r + 1, v =>
      insert v ((nbrIds s directed v).foldl
        (fun acc u => acc ∪ reach s directed r u) ∅)

theorem mem_foldl_union {α : Type} [DecidableEq α] (l : List Nat)
    (f : Nat → Finset α) (init : Finset α) (x : α) :
    x ∈ l.foldl (fun acc u => acc ∪ f u) init
      ↔ x ∈ init ∨ ∃ u ∈ l, x ∈ f u := by
  induction l generalizing init with
  | nil => simp
  | cons u rest ih =>
      simp only [List.foldl_cons]
      rw [ih]
      simp only [Finset.mem_union, List.mem_cons]
      constructor
      · rintro ((hx | hx) | ⟨u2, hu2, hx⟩)
        · exact Or.inl hx
        · exact Or.inr ⟨u, Or.inl rfl, hx⟩
        · exact Or.inr ⟨u2, Or.inr hu2, hx⟩
      · rintro (hx | ⟨u2, (he | he), hx⟩)
        · exact Or.inl (Or.inl hx)
        · subst he
          exact Or.inl (Or.inr hx)
        · exact Or.inr ⟨u2, he, hx⟩

theorem mem_reach_iff (s : Store) (directed : Bool) (r : Nat) (v x : Nat) :
    x ∈ reach s directed (r + 1) v
      ↔ x = v ∨ ∃ u ∈ nbrIds s directed v, x ∈ reach s directed r u := by
  rw [show reach s directed (r + 1) v
        = insert v ((nbrIds s directed v).foldl
            (fun acc u => acc ∪ reach s directed r u) ∅) from rfl]
  rw [Finset.mem_insert, mem_foldl_union]
  simp

theorem self_mem_reach (s : Store) (directed : Bool) (r v : Nat) :
    v ∈ reach s directed r v := by
  cases r with
  | zero => simp [reach]
  | succ r2 => rw [mem_reach_iff]; exact Or.inl rfl

theorem reach_mono_succ (s : Store) (directed : Bool) (r : Nat) :
    ∀ v, reach s directed r v ⊆ reach s directed (r + 1) v := by
  induction r with
  | zero =>
      intro v x hx
      simp only [reach, Finset.mem_singleton] at hx
      subst hx
      exact self_mem_reach s directed 1 x
  | succ r2 ih =>
      intro v x hx
      rw [mem_reach_iff] at hx
      rw [mem_reach_iff]
      rcases hx with hx | ⟨u, hu, hx⟩
      · exact Or.inl hx
      · exact Or.inr ⟨u, hu, ih u hx⟩

theorem reach_mono (s : Store) (directed : Bool) {r1 r2 : Nat}
    (h : r1 ≤ r2) (v : Nat) :
    reach s directed r1 v ⊆ reach s directed r2 v := by
  induction r2 with
  | zero =>
      have : r1 = 0 := by omega
      subst this
      exact subset_rfl
  | succ r3 ih =>
      by_cases he : r1 = r3 + 1
      · subst he
        exact subset_rfl
      · have : r1 ≤ r3 := by omega
        exact subset_trans (ih this) (reach_mono_succ s directed r3 v)

theorem reach_step (s : Store) (directed : Bool) :
    ∀ (r : Nat) (w v u : Nat), v ∈ reach s directed r w
      → u ∈ nbrIds s directed v → u ∈ reach s directed (r + 1) w := by
  intro r
  induction r with
  | zero =>
      intro w v u hv hu
      simp only [reach, Finset.mem_singleton] at hv
      subst hv
      rw [mem_reach_iff]
      exact Or.inr ⟨u, hu, self_mem_reach s directed 0 u⟩
  | succ r2 ih =>
      intro w v u hv hu
      rw [mem_reach_iff] at hv
      rw [mem_reach_iff]
      rcases hv with hv | ⟨x, hx, hv⟩
      · subst hv
        exact Or.inr ⟨u, hu, self_mem_reach s directed (r2 + 1) u⟩
      · exact Or.inr ⟨x, hx, ih x v u hv hu⟩

/-- `nbrIds` restricted to a sublist of the walkable edges. -/
def nbrIdsOf (s : Store) (directed : Bool) (nid : Nat)
    (l : List RelationshipEdge) : List Nat :=
  (l.map (walk_neighbor directed nid)).filter
    (fun i => (get_twin_by_id s i).isSome)

theorem nbrIds_eq_nbrIdsOf (s : Store) (directed : Bool) (nid : Nat) :
    nbrIds s directed nid
      = nbrIdsOf s directed nid (edges_to_walk s directed nid) := rfl

theorem visitedNode_iff (st : BfsState) (i : Nat) :
    visitedNode st i = true ↔ i ∈ st.nodes.map Prod.fst := by
  unfold visitedNode
  rw [List.any_eq_true]
  constructor
  · rintro ⟨p, hp, hpe⟩
    simp only [beq_iff_eq] at hpe
    exact List.mem_map.mpr ⟨p, hp, hpe⟩
  · intro hi
    rcases List.mem_map.mp hi with ⟨p, hp, hpe⟩
    exact ⟨p, hp, by simp [hpe]⟩

theorem expand_edge_cases (s : Store) (directed : Bool) (nid d : Nat)
    (st : BfsState) (e : RelationshipEdge) :
    ((expand_edge s directed nid d st e).nodes = st.nodes
      ∧ (expand_edge s directed nid d st e).queue = st.queue
      ∧ (visitedNode st (walk_neighbor directed nid e) = true
        ∨ get_twin_by_id s (walk_neighbor directed nid e) = none))
    ∨ (∃ tw, get_twin_by_id s (walk_neighbor directed nid e) = some tw
        ∧ visitedNode st (walk_neighbor directed nid e) = false
        ∧ (expand_edge s directed nid d st e).nodes
            = st.nodes ++ [(walk_neighbor directed nid e, tw)]
        ∧ (expand_edge s directed nid d st e).queue
            = st.queue ++ [(walk_neighbor directed nid e, d + 1)]) := by
  unfold expand_edge
  set stE := if visitedEdge st e.id then st
             else { st with edgesV := st.edgesV ++ [(e.id, e)] } with hstE
  have hnodes : stE.nodes = st.nodes := by
    by_cases hv : visitedEdge st e.id <;> simp [hstE, hv]
  have hqueue : stE.queue = st.queue := by
    by_cases hv : visitedEdge st e.id <;> simp [hstE, hv]
  have hvisE : visitedNode stE (walk_neighbor directed nid e)
      = visitedNode st (walk_neighbor directed nid e) := by
    unfold visitedNode
    rw [hnodes]
  dsimp only
  by_cases hvn : visitedNode st (walk_neighbor directed nid e) = true
  · rw [hvisE, if_pos hvn]
    exact Or.inl ⟨hnodes, hqueue, Or.inl hvn⟩
  · rw [hvisE, if_neg hvn]
    have hvn2 : visitedNode st (walk_neighbor directed nid e) = false :=
      Bool.not_eq_true _ ▸ (by simpa using hvn)
    cases htw : get_twin_by_id s (walk_neighbor directed nid e) with
    | none => exact Or.inl ⟨hnodes, hqueue, Or.inr rfl⟩
    | some tw =>
        refine Or.inr ⟨tw, rfl, hvn2, ?_, ?_⟩
        · simp [hnodes]
        · simp [hqueue]

theorem expand_edge_edgesV (s : Store) (directed : Bool) (nid d : Nat)
    (st : BfsState) (e : RelationshipEdge) :
    ∀ p ∈ (expand_edge s directed nid d st e).edgesV,
      p ∈ st.edgesV ∨ p.2 = e := by
  unfold expand_edge
  set stE := if visitedEdge st e.id then st
             else { st with edgesV := st.edgesV ++ [(e.id, e)] } with hstE
  have hE : ∀ p ∈ stE.edgesV, p ∈ st.edgesV ∨ p.2 = e := by
    by_cases hv : visitedEdge st e.id
    · simp only [hstE, hv, if_true]
      intro p hp
      exact Or.inl hp
    · simp only [hstE, hv, Bool.false_eq_true, if_false]
      intro p hp
      rcases List.mem_append.mp hp with hp | hp
      · exact Or.inl hp
      · simp only [List.mem_cons, List.not_mem_nil, or_false] at hp
        subst hp
        exact Or.inr rfl
  by_cases hvn : visitedNode stE (walk_neighbor directed nid e) = true
  · rw [if_pos hvn]
    exact hE
  · rw [if_neg hvn]
    cases htw : get_twin_by_id s (walk_neighbor directed nid e) with
    | none => exact hE
    | some tw =>
        intro p hp
        exact hE p hp

theorem nbrIdsOf_cons (s : Store) (directed : Bool) (nid : Nat)
    (e : RelationshipEdge) (rest : List RelationshipEdge) :
    nbrIdsOf s directed nid (e :: rest)
      = if (get_twin_by_id s (walk_neighbor directed nid e)).isSome then
          walk_neighbor directed nid e :: nbrIdsOf s directed nid rest
        else nbrIdsOf s directed nid rest := by
  unfold nbrIdsOf
  simp only [List.map_cons, List.filter_cons]

theorem foldl_expand_edge_spec (s : Store) (directed : Bool) (nid d : Nat) :
    ∀ (l : List RelationshipEdge) (st : BfsState),
    ∃ dl : List (Nat × TwinNode),
      (l.foldl (expand_edge s directed nid d) st).nodes = st.nodes ++ dl
      ∧ (l.foldl (expand_edge s directed nid d) st).queue
          = st.queue ++ dl.map (fun p => (p.1, d + 1))
      ∧ (∀ p ∈ dl, p.1 ∈ nbrIdsOf s directed nid l
          ∧ get_twin_by_id s p.1 = some p.2
          ∧ p.1 ∉ st.nodes.map Prod.fst)
      ∧ (dl.map Prod.fst).Nodup
      ∧ (∀ u ∈ nbrIdsOf s directed nid l,
          u ∈ (st.nodes ++ dl).map Prod.fst)
      ∧ (∀ p ∈ (l.foldl (expand_edge s directed nid d) st).edgesV,
          p ∈ st.edgesV ∨ p.2 ∈ l) := by
  intro l
  induction l with
  | nil =>
      intro st
      refine ⟨[], by simp, by simp, by simp, by simp, ?_, ?_⟩
      · intro u hu
        simp [nbrIdsOf] at hu
      · intro p hp
        exact Or.inl hp
  | cons e rest ih =>
      intro st
      simp only [List.foldl_cons]
      rcases ih (expand_edge s directed nid d st e) with
        ⟨dl2, h1, h2, h3, h4, h5, h6⟩
      rcases expand_edge_cases s directed nid d st e with
        ⟨he1, he2, he3⟩ | ⟨tw, htw, hvn, he1, he2⟩
      · -- neighbor skipped: same nodes and queue
        refine ⟨dl2, ?_, ?_, ?_, h4, ?_, ?_⟩
        · rw [h1, he1]
        · rw [h2, he2]
        · intro p hp
          rcases h3 p hp with ⟨hp1, hp2, hp3⟩
          rw [he1] at hp3
          refine ⟨?_, hp2, hp3⟩
          rw [nbrIdsOf_cons]
          by_cases hs : (get_twin_by_id s (walk_neighbor directed nid e)).isSome
          · rw [if_pos hs]
            exact List.mem_cons_of_mem _ hp1
          · rw [if_neg hs]
            exact hp1
        · intro u hu
          rw [nbrIdsOf_cons] at hu
          by_cases hs : (get_twin_by_id s (walk_neighbor directed nid e)).isSome
          · rw [if_pos hs] at hu
            rcases List.mem_cons.mp hu with hue | hue
            · subst hue
              rcases he3 with he3 | he3
              · have hv2 := (visitedNode_iff st
                  (walk_neighbor directed nid e)).mp he3
                rw [List.map_append]
                exact List.mem_append_left _ hv2
              · rw [he3] at hs
                simp at hs
            · have := h5 u hue
              rw [he1] at this
              exact this
          · rw [if_neg hs] at hu
            have := h5 u hu
            rw [he1] at this
            exact this
        · intro p hp
          rcases h6 p hp with hp | hp
          · rcases expand_edge_edgesV s directed nid d st e p hp with hp2 | hp2
            · exact Or.inl hp2
            · exact Or.inr (by rw [hp2]; exact List.mem_cons_self _ _)
          · exact Or.inr (List.mem_cons_of_mem _ hp)
      · -- neighbor freshly visited
        set nb := walk_neighbor directed nid e with hnb
        have hnbs : (get_twin_by_id s nb).isSome := by rw [htw]; rfl
        have hnbnotin : nb ∉ st.nodes.map Prod.fst := by
          intro hc
          rw [← visitedNode_iff] at hc
          rw [hvn] at hc
          exact Bool.noConfusion hc
        refine ⟨(nb, tw) :: dl2, ?_, ?_, ?_, ?_, ?_, ?_⟩
        · rw [h1, he1]
          simp
        · rw [h2, he2]
          simp
        · intro p hp
          rcases List.mem_cons.mp hp with hp | hp
          · subst hp
            refine ⟨?_, htw, hnbnotin⟩
            rw [nbrIdsOf_cons, if_pos hnbs]
            exact List.mem_cons_self _ _
          · rcases h3 p hp with ⟨hp1, hp2, hp3⟩
            rw [he1, List.map_append] at hp3
            refine ⟨?_, hp2, fun hc => hp3 (List.mem_append_left _ hc)⟩
            rw [nbrIdsOf_cons, if_pos hnbs]
            exact List.mem_cons_of_mem _ hp1
        · simp only [List.map_cons, List.nodup_cons]
          refine ⟨?_, h4⟩
          intro hc
          rcases List.mem_map.mp hc with ⟨p, hp, hpe⟩
          rcases h3 p hp with ⟨_, _, hp3⟩
          rw [he1, List.map_append] at hp3
          apply hp3
          apply List.mem_append_right
          simp [hpe]
        · intro u hu
          rw [nbrIdsOf_cons, if_pos hnbs] at hu
          rcases List.mem_cons.mp hu with hue | hue
          · subst hue
            rw [List.map_append]
            apply List.mem_append_right
            simp
          · have := h5 u hue
            rw [he1] at this
            rw [List.map_append] at this ⊢
            rcases List.mem_append.mp this with hh | hh
            · rw [List.map_append] at hh
              rcases List.mem_append.mp hh with hh | hh
              · exact List.mem_append_left _ hh
              · apply List.mem_append_right
                simp only [List.map_cons, List.mem_cons]
                simp only [List.map_cons, List.map_nil, List.mem_cons,
                  List.not_mem_nil, or_false] at hh
                exact Or.inl hh
            · apply List.mem_append_right
              simp only [List.map_cons, List.mem_cons]
              exact Or.inr hh
        · intro p hp
          rcases h6 p hp with hp | hp
          · rcases expand_edge_edgesV s directed nid d st e p hp with hp2 | hp2
            · exact Or.inl hp2
            · exact Or.inr (by rw [hp2]; exact List.mem_cons_self _ _)
          · exact Or.inr (List.mem_cons_of_mem _ hp)

/-- The loop invariant of `get_subgraph`'s BFS, for hop bound `h` and start
id `sid`: visited keys are distinct and correctly mapped; queue ids are
distinct visited ids with their first-seen depth, which certifies
`reach`-membership; all visited ids lie in the radius-`h` ball; queue depths
are nondecreasing and stay within one of the front depth; and a ghost depth
assignment `dep` records each visited id's enqueue depth, such that every
visited id no longer queued is either beyond the bound or fully expanded
(all its neighbors visited at depth at most one greater). -/
def BfsInv (s : Store) (directed : Bool) (h : Nat) (sid : Nat)
    (st : BfsState) : Prop :=
  ((st.nodes.map Prod.fst).Nodup)
  ∧ (∀ p ∈ st.nodes, get_twin_by_id s p.1 = some p.2)
  ∧ ((st.queue.map Prod.fst).Nodup)
  ∧ (∀ q ∈ st.queue, q.1 ∈ st.nodes.map Prod.fst
      ∧ q.1 ∈ reach s directed q.2 sid ∧ q.2 ≤ h)
  ∧ (∀ p ∈ st.nodes, p.1 ∈ reach s directed h sid)
  ∧ (sid ∈ st.nodes.map Prod.fst)
  ∧ (List.Sorted (· ≤ ·) (st.queue.map Prod.snd))
  ∧ (∀ p ∈ st.edgesV, p.2 ∈ s.edges)
  ∧ ∃ dep : Nat → Nat,
      dep sid = 0
      ∧ (∀ q ∈ st.queue, dep q.1 = q.2)
      ∧ (∀ p ∈ st.nodes, p.1 ∉ st.queue.map Prod.fst →
          h ≤ dep p.1
          ∨ ∀ u ∈ nbrIds s directed p.1,
              u ∈ st.nodes.map Prod.fst ∧ dep u ≤ dep p.1 + 1)
      ∧ (match st.queue with
         | [] => True
         | q0 :: _ =>
             (∀ q ∈ st.queue, q.2 ≤ q0.2 + 1)
             ∧ (∀ p ∈ st.nodes, dep p.1 ≤ q0.2 + 1))

theorem skip_preserves_inv (s : Store) (directed : Bool) (h : Nat)
    (sid : Nat) (st : BfsState) (v d : Nat) (rest : List (Nat × Nat))
    (hq : st.queue = (v, d) :: rest) (hd : h ≤ d)
    (hinv : BfsInv s directed h sid st) :
    BfsInv s directed h sid { st with queue := rest } := by
  obtain ⟨h1, h2, h3, h4, h5, h6, h7, h8, dep, hd0, hd1, hd2, hd3⟩ := hinv
  rw [hq] at h3 h4 h7 hd1 hd2 hd3
  refine ⟨h1, h2, ?_, ?_, h5, h6, ?_, h8, dep, hd0, ?_, ?_, ?_⟩
  · simp only [List.map_cons] at h3
    exact h3.of_cons
  · intro q hqm
    exact h4 q (List.mem_cons_of_mem _ hqm)
  · simp only [List.map_cons] at h7
    exact h7.of_cons
  · intro q hqm
    exact hd1 q (List.mem_cons_of_mem _ hqm)
  · intro p hp hpq
    by_cases hpv : p.1 = v
    · left
      have : dep v = d := hd1 (v, d) (List.mem_cons_self _ _)
      rw [hpv, this]
      exact hd
    · have hpnot : p.1 ∉ ((v, d) :: rest).map Prod.fst := by
        simp only [List.map_cons, List.mem_cons]
        rintro (hc | hc)
        · exact hpv hc
        · exact hpq hc
      rcases hd2 p hp hpnot with hc | hc
      · exact Or.inl hc
      · exact Or.inr hc
  · cases hrest : rest with
    | nil => trivial
    | cons q0 rest2 =>
        obtain ⟨hb1, hb2⟩ := hd3
        have hd_le : d ≤ q0.2 := by
          rw [hrest] at h7
          simp only [List.map_cons, List.sorted_cons] at h7
          exact h7.1 q0.2 (by simp)
        constructor
        · intro q hqm
          have hq2 : q ∈ (v, d) :: rest := by
            rw [hrest]
            exact List.mem_cons_of_mem _ hqm
          have := hb1 q hq2
          omega
        · intro p hp
          have := hb2 p hp
          omega

theorem sorted_le_const (c : Nat) : ∀ (L : List Nat), (∀ x ∈ L, x = c) →
    List.Sorted (· ≤ ·) L := by
  intro L
  induction L with
  | nil => intro _; exact List.sorted_nil
  | cons x xs ih =>
      intro hL
      rw [List.sorted_cons]
      refine ⟨?_, ih (fun y hy => hL y (List.mem_cons_of_mem _ hy))⟩
      intro y hy
      rw [hL x (List.mem_cons_self _ _), hL y (List.mem_cons_of_mem _ hy)]

theorem mem_edges_to_walk (s : Store) (directed : Bool) (v : Nat) :
    ∀ e ∈ edges_to_walk s directed v, e ∈ s.edges := by
  intro e he
  unfold edges_to_walk at he
  by_cases hdir : directed
  · simp only [hdir, if_true] at he
    exact List.mem_of_mem_filter he
  · simp only [hdir, Bool.false_eq_true, if_false] at he
    rcases List.mem_append.mp he with he | he <;>
      exact List.mem_of_mem_filter he

theorem expand_preserves_inv (s : Store) (directed : Bool) (h : Nat)
    (sid : Nat) (st : BfsState) (v d : Nat) (rest : List (Nat × Nat))
    (hq : st.queue = (v, d) :: rest) (hd : d < h)
    (hinv : BfsInv s directed h sid st) :
    BfsInv s directed h sid
      (expand_node s directed v d { st with queue := rest }) := by
  obtain ⟨h1, h2, h3, h4, h5, h6, h7, h8, dep, hd0, hd1, hd2, hd3⟩ := hinv
  rw [hq] at h3 h4 h7 hd1 hd2 hd3
  have hv_reach : v ∈ reach s directed d sid :=
    (h4 _ (List.mem_cons_self _ _)).2.1
  have hv_node : v ∈ st.nodes.map Prod.fst :=
    (h4 _ (List.mem_cons_self _ _)).1
  have hdepv : dep v = d := hd1 _ (List.mem_cons_self _ _)
  obtain ⟨hb1, hb2⟩ := hd3
  have hrest_ge : ∀ q ∈ rest, d ≤ q.2 := by
    simp only [List.map_cons, List.sorted_cons] at h7
    intro q hqm
    exact h7.1 q.2 (List.mem_map.mpr ⟨q, hqm, rfl⟩)
  have hsort_rest : List.Sorted (· ≤ ·) (rest.map Prod.snd) := by
    simp only [List.map_cons, List.sorted_cons] at h7
    exact h7.2
  have hqrest : ∀ q ∈ rest, q.1 ∈ st.nodes.map Prod.fst
      ∧ q.1 ∈ reach s directed q.2 sid ∧ q.2 ≤ h := by
    intro q hqm
    exact h4 q (List.mem_cons_of_mem _ hqm)
  have hreq : ∀ q ∈ rest, q.2 ≤ d + 1 := by
    intro q hqm
    exact hb1 q (List.mem_cons_of_mem _ hqm)
  obtain ⟨dl, e1, e2, e3, e4, e5, e6⟩ :=
    foldl_expand_edge_spec s directed v d (edges_to_walk s directed v)
      { st with queue := rest }
  have hexp : expand_node s directed v d { st with queue := rest }
      = (edges_to_walk s directed v).foldl (expand_edge s directed v d)
          { st with queue := rest } := rfl
  rw [hexp]
  simp only at e1 e2 e3 e5 e6
  have e3' : ∀ p ∈ dl, p.1 ∈ nbrIds s directed v
      ∧ get_twin_by_id s p.1 = some p.2
      ∧ p.1 ∉ st.nodes.map Prod.fst := by
    intro p hp
    exact e3 p hp
  have e5' : ∀ u ∈ nbrIds s directed v, u ∈ (st.nodes ++ dl).map Prod.fst := by
    intro u hu
    exact e5 u hu
  have hfresh : ∀ x ∈ dl.map Prod.fst, x ∉ st.nodes.map Prod.fst := by
    intro x hx
    rcases List.mem_map.mp hx with ⟨p, hp, hpe⟩
    rw [← hpe]
    exact (e3' p hp).2.2
  refine ⟨?_, ?_, ?_, ?_, ?_, ?_, ?_, ?_,
    (fun u => if u ∈ dl.map Prod.fst then d + 1 else dep u),
    ?_, ?_, ?_, ?_⟩
  · rw [e1, List.map_append, List.nodup_append]
    exact ⟨h1, e4, fun x hx hy => hfresh x hy hx⟩
  · intro p hp
    rw [e1] at hp
    rcases List.mem_append.mp hp with hp | hp
    · exact h2 p hp
    · exact (e3' p hp).2.1
  · rw [e2, List.map_append, List.nodup_append]
    refine ⟨?_, ?_, ?_⟩
    · simp only [List.map_cons] at h3
      exact h3.of_cons
    · rw [List.map_map]
      have : (Prod.fst ∘ fun p : Nat × TwinNode => (p.1, d + 1))
          = Prod.fst := by
        funext p
        rfl
      rw [this]
      exact e4
    · intro x hx hy
      rw [List.map_map] at hy
      have hxk : x ∈ st.nodes.map Prod.fst := by
        rcases List.mem_map.mp hx with ⟨q, hqm, hqe⟩
        rw [← hqe]
        exact (hqrest q hqm).1
      rcases List.mem_map.mp hy with ⟨p, hp, hpe⟩
      apply hfresh x
      · rw [← hpe]
        exact List.mem_map.mpr ⟨p, hp, rfl⟩
      · exact hxk
  · intro q hqm
    rw [e2] at hqm
    rw [e1, List.map_append]
    rcases List.mem_append.mp hqm with hqm | hqm
    · obtain ⟨ha, hb, hc⟩ := hqrest q hqm
      exact ⟨List.mem_append_left _ ha, hb, hc⟩
    · rcases List.mem_map.mp hqm with ⟨p, hp, hpe⟩
      rw [← hpe]
      refine ⟨?_, ?_, by omega⟩
      · apply List.mem_append_right
        exact List.mem_map.mpr ⟨p, hp, rfl⟩
      · exact reach_step s directed d sid v p.1 hv_reach (e3' p hp).1
  · intro p hp
    rw [e1] at hp
    rcases List.mem_append.mp hp with hp | hp
    · exact h5 p hp
    · have hr : p.1 ∈ reach s directed (d + 1) sid :=
        reach_step s directed d sid v p.1 hv_reach (e3' p hp).1
      exact reach_mono s directed (by omega) sid hr
  · rw [e1, List.map_append]
    exact List.mem_append_left _ h6
  · rw [e2, List.map_append]
    rw [List.Sorted, List.pairwise_append]
    refine ⟨hsort_rest, ?_, ?_⟩
    · apply sorted_le_const (d + 1)
      intro x hx
      rw [List.map_map] at hx
      rcases List.mem_map.mp hx with ⟨p, _, hpe⟩
      exact hpe.symm
    · intro a ha b hb
      rw [List.map_map] at hb
      rcases List.mem_map.mp hb with ⟨p, _, hpe⟩
      rcases List.mem_map.mp ha with ⟨q, hqm, hqe⟩
      rw [← hpe, ← hqe]
      have := hreq q hqm
      simp only [Function.comp_apply]
      omega
  · intro p hp
    rcases e6 p hp with hp2 | hp2
    · exact h8 p hp2
    · exact mem_edges_to_walk s directed v p.2 hp2
  · dsimp only
    have : sid ∉ dl.map Prod.fst := fun hc => hfresh sid hc h6
    rw [if_neg this]
    exact hd0
  · intro q hqm
    dsimp only
    rw [e2] at hqm
    rcases List.mem_append.mp hqm with hqm | hqm
    · have hqk : q.1 ∈ st.nodes.map Prod.fst := (hqrest q hqm).1
      have : q.1 ∉ dl.map Prod.fst := fun hc => hfresh q.1 hc hqk
      rw [if_neg this]
      exact hd1 q (List.mem_cons_of_mem _ hqm)
    · rcases List.mem_map.mp hqm with ⟨p, hp, hpe⟩
      rw [← hpe]
      simp only
      rw [if_pos (List.mem_map.mpr ⟨p, hp, rfl⟩)]
  · intro p hp hpq
    dsimp only
    rw [e1] at hp
    rw [e2, List.map_append] at hpq
    rcases List.mem_append.mp hp with hp | hp
    · have hpk : p.1 ∈ st.nodes.map Prod.fst :=
        List.mem_map.mpr ⟨p, hp, rfl⟩
      have hpdl : p.1 ∉ dl.map Prod.fst := fun hc => hfresh p.1 hc hpk
      rw [if_neg hpdl]
      by_cases hpv : p.1 = v
      · right
        rw [hpv]
        intro u hu
        have hu2 := e5' u hu
        refine ⟨by rw [e1]; exact hu2, ?_⟩
        rw [hdepv]
        by_cases hudl : u ∈ dl.map Prod.fst
        · rw [if_pos hudl]
        · rw [if_neg hudl]
          rw [List.map_append] at hu2
          rcases List.mem_append.mp hu2 with hu3 | hu3
          · rcases List.mem_map.mp hu3 with ⟨p2, hp2, hpe2⟩
            rw [← hpe2]
            exact hb2 p2 hp2
          · exact absurd hu3 hudl
      · have hnot : p.1 ∉ ((v, d) :: rest).map Prod.fst := by
          simp only [List.map_cons, List.mem_cons]
          rintro (hc | hc)
          · exact hpv hc
          · apply hpq
            rw [List.map_map]
            exact List.mem_append_left _ hc
        rcases hd2 p hp hnot with hc | hc
        · exact Or.inl hc
        · right
          intro u hu
          obtain ⟨hu1, hu2⟩ := hc u hu
          have hudl : u ∉ dl.map Prod.fst := fun hcc => hfresh u hcc hu1
          rw [if_neg hudl]
          rw [e1, List.map_append]
          exact ⟨List.mem_append_left _ hu1, hu2⟩
    · exfalso
      apply hpq
      apply List.mem_append_right
      rw [List.map_map]
      exact List.mem_map.mpr ⟨p, hp, rfl⟩
  · dsimp only
    rw [e2]
    cases hrc : rest with
    | nil =>
        rw [hrc] at e1
        simp only [List.nil_append]
        cases hdl : dl.map (fun p : Nat × TwinNode => (p.1, d + 1)) with
        | nil => trivial
        | cons q0 qrest =>
            have hq02 : q0.2 = d + 1 := by
              have : q0 ∈ dl.map (fun p : Nat × TwinNode => (p.1, d + 1)) := by
                rw [hdl]
                exact List.mem_cons_self _ _
              rcases List.mem_map.mp this with ⟨p, _, hpe⟩
              rw [← hpe]
            constructor
            · intro q hqm
              have : q ∈ dl.map (fun p : Nat × TwinNode => (p.1, d + 1)) := by
                rw [hdl]
                exact hqm
              rcases List.mem_map.mp this with ⟨p, _, hpe⟩
              rw [← hpe]
              omega
            · intro p hp
              rw [e1] at hp
              rcases List.mem_append.mp hp with hp | hp
              · have hpk : p.1 ∈ st.nodes.map Prod.fst :=
                  List.mem_map.mpr ⟨p, hp, rfl⟩
                rw [if_neg (fun hc => hfresh p.1 hc hpk)]
                have := hb2 p hp
                omega
              · rw [if_pos (List.mem_map.mpr ⟨p, hp, rfl⟩)]
                omega
    | cons q0 rest2 =>
        rw [hrc] at e1
        simp only [List.cons_append]
        have hdq0 : d ≤ q0.2 := hrest_ge q0 (by rw [hrc]; exact List.mem_cons_self _ _)
        constructor
        · intro q hqm
          rcases List.mem_cons.mp hqm with he | he
          · subst he
            omega
          · rcases List.mem_append.mp he with he | he
            · have := hreq q (by rw [hrc]; exact List.mem_cons_of_mem _ he)
              omega
            · rcases List.mem_map.mp he with ⟨p, _, hpe⟩
              rw [← hpe]
              omega
        · intro p hp
          rw [e1] at hp
          rcases List.mem_append.mp hp with hp | hp
          · have hpk : p.1 ∈ st.nodes.map Prod.fst :=
              List.mem_map.mpr ⟨p, hp, rfl⟩
            rw [if_neg (fun hc => hfresh p.1 hc hpk)]
            have := hb2 p hp
            omega
          · rw [if_pos (List.mem_map.mpr ⟨p, hp, rfl⟩)]
            omega

theorem bfs_loop_nil (s : Store) (directed : Bool) (h : Nat) (st : BfsState)
    (hq : st.queue = []) : bfs_loop s directed h st = st := by
  rw [bfs_loop.eq_def, hq]

theorem bfs_loop_cons (s : Store) (directed : Bool) (h : Nat) (st : BfsState)
    (v d : Nat) (rest : List (Nat × Nat)) (hq : st.queue = (v, d) :: rest) :
    bfs_loop s directed h st
      = if h ≤ d then bfs_loop s directed h { st with queue := rest }
        else bfs_loop s directed h
          (expand_node s directed v d { st with queue := rest }) := by
  rw [bfs_loop.eq_def, hq]

theorem bfs_loop_inv (s : Store) (directed : Bool) (h sid : Nat) :
    ∀ (n : Nat) (st : BfsState), bfsMeasure s st ≤ n →
      BfsInv s directed h sid st →
      BfsInv s directed h sid (bfs_loop s directed h st)
        ∧ (bfs_loop s directed h st).queue = [] := by
  intro n
  induction n with
  | zero =>
      intro st hm hinv
      have hqe : st.queue = [] := by
        unfold bfsMeasure at hm
        have : st.queue.length = 0 := by omega
        exact List.length_eq_zero.mp this
      rw [bfs_loop_nil s directed h st hqe]
      exact ⟨hinv, hqe⟩
  | succ n2 ih =>
      intro st hm hinv
      cases hq : st.queue with
      | nil =>
          rw [bfs_loop_nil s directed h st hq]
          exact ⟨hinv, hq⟩
      | cons qd rest =>
          obtain ⟨v, d⟩ := qd
          rw [bfs_loop_cons s directed h st v d rest hq]
          have hmst : bfsMeasure s { st with queue := rest } + 1
              ≤ bfsMeasure s st := by
            unfold bfsMeasure
            rw [hq]
            simp only [List.length_cons]
            omega
          by_cases hle : h ≤ d
          · rw [if_pos hle]
            apply ih
            · omega
            · exact skip_preserves_inv s directed h sid st v d rest hq hle hinv
          · rw [if_neg hle]
            apply ih
            · have := expand_node_measure s directed v d
                { st with queue := rest }
              omega
            · exact expand_preserves_inv s directed h sid st v d rest hq
                (by omega) hinv

theorem bfs_final_keys (s : Store) (directed : Bool) (h sid : Nat)
    (st : BfsState) (hinv : BfsInv s directed h sid st)
    (hqe : st.queue = []) :
    ∀ x, x ∈ st.nodes.map Prod.fst ↔ x ∈ reach s directed h sid := by
  obtain ⟨h1, h2, h3, h4, h5, h6, h7, h8, dep, hd0, hd1, hd2, hd3⟩ := hinv
  rw [hqe] at hd2
  have hdone : ∀ p ∈ st.nodes, h ≤ dep p.1
      ∨ ∀ u ∈ nbrIds s directed p.1,
          u ∈ st.nodes.map Prod.fst ∧ dep u ≤ dep p.1 + 1 := by
    intro p hp
    exact hd2 p hp (by simp)
  have main : ∀ (r : Nat) (x : Nat), x ∈ st.nodes.map Prod.fst →
      dep x + r ≤ h →
      ∀ y ∈ reach s directed r x, y ∈ st.nodes.map Prod.fst := by
    intro r
    induction r with
    | zero =>
        intro x hx _ y hy
        simp only [reach, Finset.mem_singleton] at hy
        subst hy
        exact hx
    | succ r2 ih =>
        intro x hx hr y hy
        rw [mem_reach_iff] at hy
        rcases hy with hy | ⟨u, hu, hy⟩
        · subst hy
          exact hx
        · rcases List.mem_map.mp hx with ⟨p, hp, hpe⟩
          rcases hdone p hp with hc | hc
          · rw [hpe] at hc
            omega
          · rw [hpe] at hc
            obtain ⟨hu1, hu2⟩ := hc u hu
            exact ih u hu1 (by omega) y hy
  intro x
  constructor
  · intro hx
    rcases List.mem_map.mp hx with ⟨p, hp, hpe⟩
    rw [← hpe]
    exact h5 p hp
  · intro hx
    exact main h sid h6 (by omega) x hx

theorem get_twin_by_id_of_nodup {s : Store}
    (hids : (s.twins.map TwinNode.id).Nodup) {t : TwinNode}
    (ht : t ∈ s.twins) : get_twin_by_id s t.id = some t := by
  unfold get_twin_by_id
  have hsome : (s.twins.find? (fun x => x.id == t.id)).isSome := by
    rw [List.find?_isSome]
    exact ⟨t, ht, by simp⟩
  obtain ⟨u, hu⟩ := Option.isSome_iff_exists.mp hsome
  rw [hu]
  have hmem := List.mem_of_find?_eq_some hu
  have hpu := List.find?_some hu
  simp only [beq_iff_eq] at hpu
  rw [List.inj_on_of_nodup_map hids hmem ht hpu]

theorem init_inv (s : Store) (directed : Bool) (h : Nat) (start : TwinNode)
    (hstw : get_twin_by_id s start.id = some start) :
    BfsInv s directed h start.id ⟨[(start.id, start)], [], [(start.id, 0)]⟩ := by
  refine ⟨?_, ?_, ?_, ?_, ?_, ?_, ?_, ?_, fun _ => 0, rfl, ?_, ?_, ?_⟩
  · simp
  · intro p hp
    simp only [List.mem_singleton] at hp
    subst hp
    exact hstw
  · simp
  · intro q hq
    simp only [List.mem_singleton] at hq
    subst hq
    exact ⟨by simp, self_mem_reach s directed 0 start.id, by omega⟩
  · intro p hp
    simp only [List.mem_singleton] at hp
    subst hp
    exact self_mem_reach s directed h start.id
  · simp
  · simp
  · intro p hp
    simp at hp
  · intro q hq
    simp only [List.mem_singleton] at hq
    subst hq
    rfl
  · intro p hp hnq
    exfalso
    apply hnq
    simp only [List.mem_singleton] at hp
    subst hp
    simp
  · refine ⟨?_, ?_⟩
    · intro q hq
      simp only [List.mem_singleton] at hq
      subst hq
      omega
    · intro p hp
      simp

/-- C4: subgraph monotonicity.  For a fixed store with distinct twin ids,
whenever `get_subgraph` succeeds at hop bounds `k` and `k + 1` (same start and
mode), every node returned at bound `k` is also returned at bound `k + 1`. -/
theorem subgraph_monotone_c4 (s : Store) (start_dtmi : String) (k : Int)
    (directed : Bool) (ns1 ns2 : List GraphNode) (es1 es2 : List GraphEdge)
    (hids : (s.twins.map TwinNode.id).Nodup)
    (h1 : get_subgraph s start_dtmi k directed = .ok (ns1, es1))
    (h2 : get_subgraph s start_dtmi (k + 1) directed = .ok (ns2, es2)) :
    ∀ nd ∈ ns1, nd ∈ ns2 := by
  unfold get_subgraph at h1 h2
  by_cases hk : k < 0
  · rw [if_pos hk] at h1
    exact absurd h1 (by simp)
  rw [if_neg hk] at h1
  rw [if_neg (by omega : ¬ k + 1 < 0)] at h2
  cases hdt : get_twin_by_dtmi s start_dtmi with
  | none =>
      rw [hdt] at h1
      exact absurd h1 (by simp)
  | some start =>
      rw [hdt] at h1 h2
      dsimp only at h1 h2
      cases he1 : edges_out s (bfs_loop s directed k.toNat
          ⟨[(start.id, start)], [], [(start.id, 0)]⟩).edgesV with
      | error err =>
          rw [he1] at h1
          exact absurd h1 (by simp)
      | ok edges1 =>
      rw [he1] at h1
      cases he2 : edges_out s (bfs_loop s directed (k + 1).toNat
          ⟨[(start.id, start)], [], [(start.id, 0)]⟩).edgesV with
      | error err =>
          rw [he2] at h2
          exact absurd h2 (by simp)
      | ok edges2 =>
      rw [he2] at h2
      simp only [Except.ok.injEq, Prod.mk.injEq] at h1 h2
      obtain ⟨hns1, -⟩ := h1
      obtain ⟨hns2, -⟩ := h2
      have hmem : start ∈ s.twins := List.mem_of_find?_eq_some hdt
      have hstw : get_twin_by_id s start.id = some start :=
        get_twin_by_id_of_nodup hids hmem
      have htn : (k + 1).toNat = k.toNat + 1 := by omega
      rw [htn] at hns2
      set h0 := k.toNat with hh0
      set init : BfsState := ⟨[(start.id, start)], [], [(start.id, 0)]⟩
        with hinit
      obtain ⟨hinv1, hq1⟩ := bfs_loop_inv s directed h0 start.id
        (bfsMeasure s init) init le_rfl (init_inv s directed h0 start hstw)
      obtain ⟨hinv2, hq2⟩ := bfs_loop_inv s directed (h0 + 1) start.id
        (bfsMeasure s init) init le_rfl
        (init_inv s directed (h0 + 1) start hstw)
      have hk1 := bfs_final_keys s directed h0 start.id _ hinv1 hq1
      have hk2 := bfs_final_keys s directed (h0 + 1) start.id _ hinv2 hq2
      intro nd hnd
      rw [← hns1] at hnd
      rcases List.mem_map.mp hnd with ⟨p, hp, hpe⟩
      have hp1 : p.1 ∈ reach s directed h0 start.id :=
        (hk1 p.1).mp (List.mem_map.mpr ⟨p, hp, rfl⟩)
      have hp2 : p.1 ∈ (bfs_loop s directed (h0 + 1) init).nodes.map
          Prod.fst :=
        (hk2 p.1).mpr (reach_mono s directed (Nat.le_succ h0) start.id hp1)
      rcases List.mem_map.mp hp2 with ⟨p2, hp2m, hp2e⟩
      obtain ⟨-, hmap1, -⟩ := hinv1
      obtain ⟨-, hmap2, -⟩ := hinv2
      have hv1 := hmap1 p hp
      have hv2 := hmap2 p2 hp2m
      rw [hp2e] at hv2
      rw [hv1] at hv2
      injection hv2 with hh
      rw [← hns2]
      refine List.mem_map.mpr ⟨p2, hp2m, ?_⟩
      show to_node p2.2 = nd
      rw [← hh]
      exact hpe

/-- A concrete chain store `A → B → C` (ids 1, 2, 3; edges 1: A→B, 2: B→C)
used to witness the subgraph claims. -/
def chainStore : Store :=
  { twins := [⟨1, "dtmi:com:example:A;1", none, none, none⟩,
              ⟨2, "dtmi:com:example:B;1", none, none, none⟩,
              ⟨3, "dtmi:com:example:C;1", none, none, none⟩],
    edges := [⟨1, none, 1, 2, none⟩, ⟨2, none, 2, 3, none⟩],
    files := [], extracted := [], stitches := [], next_edge_id := 3 }

/-- Witness for C4 on the concrete chain store: both runs succeed and the
bound-1 node B reappears at bound 2. -/
theorem subgraph_monotone_c4_witness :
    get_subgraph chainStore "dtmi:com:example:A;1" 1 true
      = .ok ([⟨"dtmi:com:example:A;1", none, none, none⟩,
              ⟨"dtmi:com:example:B;1", none, none, none⟩],
             [⟨1, none, "dtmi:com:example:A;1", "dtmi:com:example:B;1", none⟩])
    ∧ get_subgraph chainStore "dtmi:com:example:A;1" 2 true
      = .ok ([⟨"dtmi:com:example:A;1", none, none, none⟩,
              ⟨"dtmi:com:example:B;1", none, none, none⟩,
              ⟨"dtmi:com:example:C;1", none, none, none⟩],
             [⟨1, none, "dtmi:com:example:A;1", "dtmi:com:example:B;1", none⟩,
              ⟨2, none, "dtmi:com:example:B;1", "dtmi:com:example:C;1", none⟩])
    ∧ (⟨"dtmi:com:example:B;1", none, none, none⟩ : GraphNode)
        ∈ [(⟨"dtmi:com:example:A;1", none, none, none⟩ : GraphNode),
           ⟨"dtmi:com:example:B;1", none, none, none⟩,
           ⟨"dtmi:com:example:C;1", none, none, none⟩] := by
  have hr1 : get_subgraph chainStore "dtmi:com:example:A;1" 1 true
      = .ok ([⟨"dtmi:com:example:A;1", none, none, none⟩,
              ⟨"dtmi:com:example:B;1", none, none, none⟩],
             [⟨1, none, "dtmi:com:example:A;1", "dtmi:com:example:B;1",
               none⟩]) := by
    simp [get_subgraph, bfs_loop, expand_node, expand_edge, edges_to_walk,
      get_twin_by_dtmi, get_twin_by_id, get_relationships_for_source,
      get_relationships_for_target, edges_out, visitedNode, visitedEdge,
      walk_neighbor, require_twin_by_id, to_node, to_edge, chainStore,
      List.find?, List.filter]
  have hr2 : get_subgraph chainStore "dtmi:com:example:A;1" 2 true
      = .ok ([⟨"dtmi:com:example:A;1", none, none, none⟩,
              ⟨"dtmi:com:example:B;1", none, none, none⟩,
              ⟨"dtmi:com:example:C;1", none, none, none⟩],
             [⟨1, none, "dtmi:com:example:A;1", "dtmi:com:example:B;1", none⟩,
              ⟨2, none, "dtmi:com:example:B;1", "dtmi:com:example:C;1",
               none⟩]) := by
    simp [get_subgraph, bfs_loop, expand_node, expand_edge, edges_to_walk,
      get_twin_by_dtmi, get_twin_by_id, get_relationships_for_source,
      get_relationships_for_target, edges_out, visitedNode, visitedEdge,
      walk_neighbor, require_twin_by_id, to_node, to_edge, chainStore,
      List.find?, List.filter]
  exact ⟨hr1, hr2,
    subgraph_monotone_c4 chainStore "dtmi:com:example:A;1" 1 true _ _ _ _
      (by decide) hr1 hr2 _ (by simp)⟩

/-- A chain store `A → B → C` with symbolic twin ids, edge ids and dtmis:
exactly three nodes and the two chain edges. -/
def chainStoreOf (ia ib ic ea eb : Nat) (a b c : String) : Store :=
  { twins := [⟨ia, a, none, none, none⟩, ⟨ib, b, none, none, none⟩,
              ⟨ic, c, none, none, none⟩],
    edges := [⟨ea, none, ia, ib, none⟩, ⟨eb, none, ib, ic, none⟩],
    files := [], extracted := [], stitches := [], next_edge_id := 1 }

/-- C5: directed versus undirected traversal on a chain.  For every store
whose edges form exactly the chain A→B→C (three distinct nodes, two distinct
edges), `get_subgraph(C, 2, directed := true)` returns exactly the node C and
no edges, while `get_subgraph(C, 2, directed := false)` returns all three
nodes and both chain edges. -/
theorem chain_traversal_c5 (ia ib ic ea eb : Nat) (a b c : String)
    (hab : ia ≠ ib) (hac : ia ≠ ic) (hbc : ib ≠ ic) (he : ea ≠ eb)
    (hsab : a ≠ b) (hsac : a ≠ c) (hsbc : b ≠ c) :
    get_subgraph (chainStoreOf ia ib ic ea eb a b c) c 2 true
      = .ok ([⟨c, none, none, none⟩], [])
    ∧ get_subgraph (chainStoreOf ia ib ic ea eb a b c) c 2 false
      = .ok ([⟨c, none, none, none⟩, ⟨b, none, none, none⟩,
              ⟨a, none, none, none⟩],
             [⟨eb, none, b, c, none⟩, ⟨ea, none, a, b, none⟩]) := by
  have n1 : (ia == ib) = false := by simp [hab]
  have n2 : (ib == ia) = false := by simp [Ne.symm hab]
  have n3 : (ia == ic) = false := by simp [hac]
  have n4 : (ic == ia) = false := by simp [Ne.symm hac]
  have n5 : (ib == ic) = false := by simp [hbc]
  have n6 : (ic == ib) = false := by simp [Ne.symm hbc]
  have n7 : (ea == eb) = false := by simp [he]
  have n8 : (eb == ea) = false := by simp [Ne.symm he]
  have s1 : (a == c) = false := by simp [hsac]
  have s2 : (b == c) = false := by simp [hsbc]
  have s3 : (a == b) = false := by simp [hsab]
  constructor
  · simp [get_subgraph, bfs_loop, expand_node, expand_edge, edges_to_walk,
      get_twin_by_dtmi, get_twin_by_id, get_relationships_for_source,
      get_relationships_for_target, edges_out, visitedNode, visitedEdge,
      walk_neighbor, require_twin_by_id, to_node, to_edge, chainStoreOf,
      List.find?, List.filter, n1, n2, n3, n4, n5, n6, n7, n8, s1, s2, s3]
  · simp [get_subgraph, bfs_loop, expand_node, expand_edge, edges_to_walk,
      get_twin_by_dtmi, get_twin_by_id, get_relationships_for_source,
      get_relationships_for_target, edges_out, visitedNode, visitedEdge,
      walk_neighbor, require_twin_by_id, to_node, to_edge, chainStoreOf,
      List.find?, List.filter, n1, n2, n3, n4, n5, n6, n7, n8, s1, s2, s3]

/-- Witness for C5 at concrete ids and dtmis. -/
theorem chain_traversal_c5_witness :
    get_subgraph (chainStoreOf 1 2 3 10 20 "dtmi:x:A;1" "dtmi:x:B;1"
        "dtmi:x:C;1") "dtmi:x:C;1" 2 true
      = .ok ([⟨"dtmi:x:C;1", none, none, none⟩], [])
    ∧ get_subgraph (chainStoreOf 1 2 3 10 20 "dtmi:x:A;1" "dtmi:x:B;1"
        "dtmi:x:C;1") "dtmi:x:C;1" 2 false
      = .ok ([⟨"dtmi:x:C;1", none, none, none⟩,
              ⟨"dtmi:x:B;1", none, none, none⟩,
              ⟨"dtmi:x:A;1", none, none, none⟩],
             [⟨20, none, "dtmi:x:B;1", "dtmi:x:C;1", none⟩,
              ⟨10, none, "dtmi:x:A;1", "dtmi:x:B;1", none⟩]) :=
  chain_traversal_c5 1 2 3 10 20 "dtmi:x:A;1" "dtmi:x:B;1" "dtmi:x:C;1"
    (by decide) (by decide) (by decide) (by decide) (by decide) (by decide)
    (by decide)
